import Mathlib

/-! # april-asr: streaming transducer session (src/april.c)

Shallow embedding of the session state machine of `src/april.c`:
`aas_create_session`, `aas_run_encoder`, `aas_run_joiner`, `aas_process_logits`
and `aas_feed_pcm16`.

Conventions of the embedding.

* A C `float` is a binary32 value (`F32`): NaN, an infinity or a finite rational,
  and a float expression is evaluated in binary32 (`FLT_EVAL_METHOD` 0).
  The subtractions `logits[0] -= early_emit` and `max_val - 6.0f` round to nearest,
  ties to even, with overflow to an infinity (`F32.sub`, `round32`), and the
  comparison `>` is false as soon as an operand is NaN (`F32.gt`).
  The local `early_emit` of `aas_feed_pcm16` takes the values `3, 2, ..., -5` and
  the quotient `pcm16[i] / 32768.0f` is a sample divided by a power of two: binary32
  arithmetic is exact on these, and they are kept as exact rationals.
* A function returns `none` when the C code has no defined behaviour: an array
  access outside its buffer, an inference-engine failure (`ORT_ABORT_ON_ERROR`),
  or the use of the return value of a call that flowed off the end of
  `aas_process_logits` without a `return`.
* `aas_process_logits` returns the new session and an `Option Bool`: `some b`
  when a `return b` statement was executed, `none` when the closing brace of the
  function was reached without one.
* The text written to `stderr` is not modelled, but the memory reads made to
  print it are (a `get_token` outside the token table is a fault).
* The inference engine (ONNX Runtime sessions `encoder`, `joiner`) and the
  feature extractor (`fbank.h`) are external: they are parameters.
-/

namespace AprilASR

/-- A binary32 value: not-a-number, the two infinities, or a finite value. The
sign of zero is not kept (it takes no part in a comparison). -/
inductive F32 where
  | nan : F32
  | ninf : F32
  | pinf : F32
  | fin (q : ℚ) : F32
deriving DecidableEq

/-- Round to the nearest integer, ties to the even one. -/
def rne (t : ℚ) : ℤ :=
  if t - ⌊t⌋ < 1 / 2 then ⌊t⌋
  else if 1 / 2 < t - ⌊t⌋ then ⌊t⌋ + 1
  else if ⌊t⌋ % 2 = 0 then ⌊t⌋ else ⌊t⌋ + 1

/-- Exponent of the spacing of binary32 values at magnitude `x`: `floor(log2 x) - 23`,
and `-149` in the subnormal range. -/
def ulp_exp (x : ℚ) : ℤ := max (Int.log 2 x - 23) (-149)

/-- Rounding of a magnitude `x ≥ 0` to a multiple of the spacing at `x`. -/
def round_mag (x : ℚ) : ℚ := (rne (x / 2 ^ ulp_exp x) : ℚ) * 2 ^ ulp_exp x

/-- Rounding to nearest, ties to even, with 24 significant bits and unbounded
exponent above. -/
def round_fin (x : ℚ) : ℚ := if 0 ≤ x then round_mag x else -round_mag (-x)

/-- Rounding of an exact result to binary32: overflow gives an infinity. -/
def round32 (x : ℚ) : F32 :=
  if (2 : ℚ) ^ 128 ≤ round_fin x then F32.pinf
  else if round_fin x ≤ -(2 : ℚ) ^ 128 then F32.ninf
  else F32.fin (round_fin x)

/-- The comparison `a > b` of C on floats. -/
def F32.gt : F32 → F32 → Bool
  | .fin x, .fin y => decide (y < x)
  | .fin _, .ninf => true
  | .pinf, .fin _ => true
  | .pinf, .ninf => true
  | _, _ => false

/-- The comparison `a <= b` of C on floats. -/
def F32.le : F32 → F32 → Bool
  | .fin x, .fin y => decide (x ≤ y)
  | .ninf, .ninf => true
  | .ninf, .fin _ => true
  | .ninf, .pinf => true
  | .fin _, .pinf => true
  | .pinf, .pinf => true
  | _, _ => false

/-- The subtraction `a - b` of C on floats. -/
def F32.sub : F32 → F32 → F32
  | .nan, _ => .nan
  | _, .nan => .nan
  | .pinf, .pinf => .nan
  | .ninf, .ninf => .nan
  | .pinf, _ => .pinf
  | .ninf, _ => .ninf
  | .fin _, .pinf => .ninf
  | .fin _, .ninf => .pinf
  | .fin x, .fin y => round32 (x - y)

/-- Position of a float among the values a scan maximum can be compared with:
NaN and minus infinity are never greater than anything. -/
def F32.key : F32 → WithBot (WithTop ℚ)
  | .nan => ⊥
  | .ninf => ⊥
  | .pinf => ((⊤ : WithTop ℚ) : WithBot (WithTop ℚ))
  | .fin q => (((q : ℚ) : WithTop ℚ) : WithBot (WithTop ℚ))

/-- Data of a float tensor (`TensorF.data`). -/
abbrev TensorF := List F32

/-- Data of an int64 tensor (`TensorI.data`). -/
abbrev TensorI := List Int

/-- The struct `ModelParameters`; `tokens` is the flat `token_count * token_length`
character table. -/
structure ModelParameters where
  batch_size : Int
  segment_size : Int
  segment_step : Int
  mel_features : Int
  sample_rate : Int
  blank_id : Int
  token_count : Int
  token_length : Nat
  tokens : List Char

/-- The function `get_token`: `&params->tokens[params->token_length * token_index]`.
The argument is converted to `size_t` (64 bits); the result is the text from that
offset on, or `none` when the offset is outside the table. -/
def get_token (params : ModelParameters) (token_index : Int) : Option (List Char) :=
  let idx : Nat := (token_index % (2 ^ 64 : Int)).toNat
  let off : Nat := (params.token_length * idx) % 2 ^ 64
  if off < params.tokens.length then some (params.tokens.drop off) else none

/-- The expression `get_token(params, i)[0]`. -/
def get_token_char0 (params : ModelParameters) (token_index : Int) : Option Char :=
  (get_token params token_index).bind List.head?

/-- The struct `FBankOptions` of `fbank.h`, with the fields `aam_create_model` sets. -/
structure FBankOptions where
  sample_freq : Int
  num_bins : Int
  pull_segment_count : Int
  pull_segment_step : Int
  frame_shift_ms : Int
  frame_length_ms : Int
  round_pow2 : Bool
  mel_low : Int
  mel_high : Int
  snip_edges : Bool

/-- The feature extractor of `fbank.h` (external): an extractor state `F` with the
three operations the session calls. `fbank_pull_segments` returns `none` for
`false` and otherwise the new extractor state and the segment it copied into the
feature buffer. `pending` bounds the number of segments that can still be
pulled before more audio is accepted, which makes the pull loop finite. -/
structure FBankApi (F : Type) where
  make_fbank : FBankOptions → F
  fbank_accept_waveform : F → List ℚ → F
  fbank_pull_segments : F → Nat → Option (F × TensorF)
  pending : F → Nat
  pull_decreases : ∀ f n f1 x, fbank_pull_segments f n = some (f1, x) → pending f1 < pending f

/-- The struct `AprilASRModel_i`. The two inference-engine sessions are functions
from their input tensors to their output tensors, `none` when `Run` fails. -/
structure AprilASRModel where
  encoder : TensorF → TensorF → TensorF → Option (TensorF × TensorF × TensorF)
  joiner : TensorI → TensorF → Option TensorF
  x_dim : Nat × Nat × Nat
  h_dim : Nat × Nat × Nat
  c_dim : Nat × Nat × Nat
  eout_dim : Nat × Nat × Nat
  context_dim : Nat × Nat
  logits_dim : Nat × Nat × Nat
  fbank_opts : FBankOptions
  params : ModelParameters

/-- Modelled from the spec: the macro `SHAPE_PRODUCT2` of `ort_util.h` is not in
src; the number of entries of a 2-dimensional shape. -/
def SHAPE_PRODUCT2 (d : Nat × Nat) : Nat := d.1 * d.2

/-- Modelled from the spec: the macro `SHAPE_PRODUCT3` of `ort_util.h` is not in
src; the number of entries of a 3-dimensional shape. -/
def SHAPE_PRODUCT3 (d : Nat × Nat × Nat) : Nat := d.1 * d.2.1 * d.2.2

/-- Modelled from the spec: `alloc_tensor3f` of `ort_util.h` is not in src; a
buffer sized from the shape. Its initial contents are taken to be zero. -/
def alloc_tensor3f (d : Nat × Nat × Nat) : TensorF :=
  List.replicate (SHAPE_PRODUCT3 d) (F32.fin 0)

/-- Modelled from the spec: `alloc_tensor2i` of `ort_util.h` is not in src; a
buffer sized from the shape. -/
def alloc_tensor2i (d : Nat × Nat) : TensorI := List.replicate (SHAPE_PRODUCT2 d) 0

/-- The struct `AprilASRSession_i`. `h` and `c` are the two-element arrays of
recurrent-state tensors, `active_tokens` the 64-entry array. The allocator handle
`memory_info` is left out. -/
structure AprilASRSession (F : Type) where
  model : AprilASRModel
  fbank : F
  x : TensorF
  hc_use_0 : Bool
  h : Fin 2 → TensorF
  c : Fin 2 → TensorF
  eout : TensorF
  context : TensorI
  logits : TensorF
  active_tokens : List Int
  active_token_head : Nat

/-- The function `aas_create_session`. -/
def aas_create_session {F : Type} (api : FBankApi F) (model : AprilASRModel) :
    AprilASRSession F where
  model := model
  fbank := api.make_fbank model.fbank_opts
  x := alloc_tensor3f model.x_dim
  hc_use_0 := false
  h := fun _ => alloc_tensor3f model.h_dim
  c := fun _ => alloc_tensor3f model.c_dim
  eout := alloc_tensor3f model.eout_dim
  context := (alloc_tensor2i model.context_dim).map (fun _ => 0)
  logits := alloc_tensor3f model.logits_dim
  active_tokens := List.replicate 64 0
  active_token_head := 0

/-- Index of the bank `aas_run_encoder` reads, `aas->hc_use_0 ? 0 : 1`, in terms
of the flag after it was toggled. -/
def encoder_read_index (hc_use_0 : Bool) : Fin 2 := if hc_use_0 then 0 else 1

/-- Index of the bank `aas_run_encoder` writes, `aas->hc_use_0 ? 1 : 0`, in terms
of the flag after it was toggled. -/
def encoder_write_index (hc_use_0 : Bool) : Fin 2 := if hc_use_0 then 1 else 0

/-- The function `aas_run_encoder`: toggles `hc_use_0`, reads `x` and the bank
`h[hc_use_0 ? 0 : 1]`, `c[hc_use_0 ? 0 : 1]`, writes `eout` and the bank
`h[hc_use_0 ? 1 : 0]`, `c[hc_use_0 ? 1 : 0]`. -/
def aas_run_encoder {F : Type} (aas : AprilASRSession F) : Option (AprilASRSession F) :=
  let hc_use_0 := !aas.hc_use_0
  let r := encoder_read_index hc_use_0
  let w := encoder_write_index hc_use_0
  match aas.model.encoder aas.x (aas.h r) (aas.c r) with
  | none => none
  | some (encoder_out, next_h, next_c) =>
    some { aas with
      hc_use_0 := hc_use_0
      eout := encoder_out
      h := Function.update aas.h w next_h
      c := Function.update aas.c w next_c }

/-- The function `aas_run_joiner`: reads `context` and `eout`, writes `logits`. -/
def aas_run_joiner {F : Type} (aas : AprilASRSession F) : Option (AprilASRSession F) :=
  match aas.model.joiner aas.context aas.eout with
  | none => none
  | some logits => some { aas with logits := logits }

/-- The four locals of the scan in `aas_process_logits`. -/
structure Scan where
  max_idx : Int
  max_idx_non0 : Int
  max_val : F32
  max_val_non0 : F32
deriving DecidableEq

/-- Values of the locals before the scan: the literal `-9999999999.0` of the source
converted to `float`, which is `-10000000000`. -/
def scan_init : Scan :=
  { max_idx := -1, max_idx_non0 := -1, max_val := round32 (-9999999999),
    max_val_non0 := round32 (-9999999999) }

/-- Body of the scan loop for index `i`. -/
def scan_step (logits : TensorF) (st : Scan) (i : Nat) : Option Scan :=
  match logits[i]? with
  | none => none
  | some v =>
    let st1 : Scan :=
      if F32.gt v st.max_val then { st with max_idx := i, max_val := v } else st
    let st2 : Scan :=
      if F32.gt v st1.max_val_non0 ∧ i > 0 then
        { st1 with max_idx_non0 := i, max_val_non0 := v }
      else st1
    some st2

/-- The locals after the first `n` iterations of `for(int i=0; i<500; i++)`. -/
def scan_after (logits : TensorF) : Nat → Option Scan
  | 0 => some scan_init
  | n + 1 => (scan_after logits n).bind (fun st => scan_step logits st n)

/-- The statement `logits[0] -= early_emit`. -/
def bias_blank (logits : TensorF) (early_emit : F32) : Option TensorF :=
  match logits with
  | [] => none
  | l0 :: rest => some (F32.sub l0 early_emit :: rest)

/-- The scan of `aas_process_logits`: the bias on entry 0, then the loop over the
indices `0 .. 499`. -/
def biased_scan (logits : TensorF) (early_emit : F32) : Option Scan :=
  (bias_blank logits early_emit).bind (fun l => scan_after l 500)

/-- The loop that prints the active tokens: it reads `active_tokens[m]` and the
text of that token for every `m < active_token_head`. True when all these reads
are inside their buffers. -/
def ring_readable (params : ModelParameters) (active_tokens : List Int) (head : Nat) : Bool :=
  (List.range head).all (fun m =>
    match active_tokens[m]? with
    | none => false
    | some t => (get_token params t).isSome)

/-- The ring-reset check of the accepting branch: the value of `active_token_head`
after `if(head > 16){ if((get_token(params, max_idx)[0] == ' ') || (head > 30)) head = 0; }`. -/
def ring_reset_check (params : ModelParameters) (head : Nat) (max_idx : Int) : Option Nat :=
  if head > 16 then
    match get_token_char0 params max_idx with
    | none => none
    | some ch => if ch = ' ' ∨ head > 30 then some 0 else some head
  else some head

/-- Write `a[i] = v` into a fixed-size array. -/
def array_write {α : Type} (a : List α) (i : Nat) (v : α) : Option (List α) :=
  if i < a.length then some (a.set i v) else none

/-- The branch `if(max_idx != 0){ ... return true; }` of `aas_process_logits`:
ring-reset check, append to `active_tokens`, shift of the context, print of the
token text. -/
def accept_branch {F : Type} (aas : AprilASRSession F) (max_idx : Int) :
    Option (AprilASRSession F × Option Bool) := do
  let params := aas.model.params
  let head ← ring_reset_check params aas.active_token_head max_idx
  let active_tokens ← array_write aas.active_tokens head max_idx
  let c1 ← aas.context[1]?
  let context0 ← array_write aas.context 0 c1
  let context ← array_write context0 1 max_idx
  let _ ← get_token params max_idx
  some ({ aas with
    active_tokens := active_tokens
    active_token_head := head + 1
    context := context }, some true)

/-- The branch `else if((max_idx == 0) && ... ){ ...; return false; }` of
`aas_process_logits` and the end of the function after it. The conjuncts are
evaluated left to right and only as far as needed. -/
def blank_branch {F : Type} (aas : AprilASRSession F) (sc : Scan) :
    Option (AprilASRSession F × Option Bool) :=
  let params := aas.model.params
  if sc.max_idx = 0 then
    match aas.context[1]? with
    | none => none
    | some c1 =>
      if c1 ≠ sc.max_idx_non0 then
        if F32.gt sc.max_val_non0 (F32.sub sc.max_val (F32.fin 6)) then
          if aas.active_token_head ≤ 16 then
            match get_token params sc.max_idx_non0 with
            | none => none
            | some _ => some (aas, some false)
          else
            match get_token_char0 params sc.max_idx_non0 with
            | none => none
            | some ch => if ch ≠ ' ' then some (aas, some false) else some (aas, none)
        else some (aas, none)
      else some (aas, none)
  else some (aas, none)

/-- The function `aas_process_logits`. -/
def aas_process_logits {F : Type} (aas : AprilASRSession F) (early_emit : F32) :
    Option (AprilASRSession F × Option Bool) :=
  let params := aas.model.params
  match bias_blank aas.logits early_emit with
  | none => none
  | some logits =>
    match scan_after logits 500 with
    | none => none
    | some sc =>
      if ring_readable params aas.active_tokens aas.active_token_head then
        if sc.max_idx ≠ 0 then accept_branch { aas with logits := logits } sc.max_idx
        else blank_branch { aas with logits := logits } sc
      else none

/-- One executed refinement round: the `early_emit` argument passed to
`aas_process_logits` and the value it returned. -/
structure Round where
  early_emit : ℚ
  emitted : Bool
deriving DecidableEq

/-- The remaining `n` iterations of the loop `for(int i=0; i<8; i++)` of
`aas_feed_pcm16`, entered with the current value of the local `early_emit`.
Returns the session and the rounds that were executed, in order. -/
def refine_rounds {F : Type} :
    Nat → ℚ → AprilASRSession F → Option (AprilASRSession F × List Round)
  | 0, _, aas => some (aas, [])
  | n + 1, early_emit, aas =>
    let early_emit := early_emit - 1
    match aas_run_joiner aas with
    | none => none
    | some aas =>
      let arg : ℚ := if early_emit > 0 then early_emit else 0
      match aas_process_logits aas (F32.fin arg) with
      | none => none
      | some (_, none) => none
      | some (aas, some r) =>
        if r = false then some (aas, [{ early_emit := arg, emitted := r }])
        else
          match refine_rounds n early_emit aas with
          | none => none
          | some (aas, rounds) => some (aas, { early_emit := arg, emitted := r } :: rounds)

/-- The refinement loop of `aas_feed_pcm16`:
`float early_emit = 3.0f; for(int i=0; i<8; i++){ ... }`. -/
def refine_loop {F : Type} (aas : AprilASRSession F) :
    Option (AprilASRSession F × List Round) :=
  refine_rounds 8 3 aas

/-- The loop `while(fbank_pull_segments(...)){ ... }` of `aas_feed_pcm16`. The
first argument bounds the number of iterations; `FBankApi.pending` of the
extractor state is enough. -/
def pull_loop {F : Type} (api : FBankApi F) :
    Nat → AprilASRSession F → Option (AprilASRSession F)
  | 0, aas => some aas
  | fuel + 1, aas =>
    match api.fbank_pull_segments aas.fbank (4 * SHAPE_PRODUCT3 aas.model.x_dim) with
    | none => some aas
    | some (fbank, x) => do
      let aas ← aas_run_encoder { aas with fbank := fbank, x := x }
      let (aas, _) ← refine_loop aas
      pull_loop api fuel aas

/-- The constant `SEGSIZE`. -/
def SEGSIZE : Nat := 3200

/-- What `aas_feed_pcm16` does with one filled `wave` buffer: the call of
`fbank_accept_waveform`, then the pull loop. -/
def feed_chunk {F : Type} (api : FBankApi F) (aas : AprilASRSession F) (wave : List ℚ) :
    Option (AprilASRSession F) :=
  let aas := { aas with fbank := api.fbank_accept_waveform aas.fbank wave }
  pull_loop api (api.pending aas.fbank) aas

/-- The loop `while(head < short_count)` of `aas_feed_pcm16`; `pcm16` holds the
`short_count` samples. The first argument bounds the number of iterations;
`short_count` is enough, each iteration consuming at least one sample. -/
def feed_loop {F : Type} (api : FBankApi F) (pcm16 : List Int) :
    Nat → Nat → AprilASRSession F → Option (AprilASRSession F)
  | 0, _, aas => some aas
  | fuel + 1, head, aas =>
    if head < pcm16.length then
      let remaining := pcm16.length - head
      if remaining < 1 then some aas
      else
        let remaining := if remaining > SEGSIZE then SEGSIZE else remaining
        let wave : List ℚ :=
          ((pcm16.drop head).take remaining).map (fun s : Int => (s : ℚ) / 32768)
        match feed_chunk api aas wave with
        | none => none
        | some aas => feed_loop api pcm16 fuel (head + remaining) aas
    else some aas

/-- The function `aas_feed_pcm16`; the list `pcm16` stands for the pointer and
`short_count`. -/
def aas_feed_pcm16 {F : Type} (api : FBankApi F) (aas : AprilASRSession F) (pcm16 : List Int) :
    Option (AprilASRSession F) :=
  feed_loop api pcm16 pcm16.length 0 aas

/-! ## Derived notions used in the statements -/

/-- The active tokens: the first `active_token_head` entries of `active_tokens`. -/
def ring {F : Type} (aas : AprilASRSession F) : List Int :=
  aas.active_tokens.take aas.active_token_head

/-- One decoder round: the joiner has left `logits` in the logits buffer, then
`aas_process_logits` runs with `early_emit`. -/
def decoder_round {F : Type} (aas : AprilASRSession F) (logits : TensorF) (early_emit : F32) :
    Option (AprilASRSession F × Option Bool) :=
  aas_process_logits { aas with logits := logits } early_emit

/-- A sequence of decoder rounds, each given by the logits the joiner produced and
the `early_emit` argument. Returns the final session and the token ids of the
rounds that returned `true`, in order. -/
def run_rounds {F : Type} :
    AprilASRSession F → List (TensorF × F32) → Option (AprilASRSession F × List Int)
  | aas, [] => some (aas, [])
  | aas, (logits, early_emit) :: rest => do
    let sc ← biased_scan logits early_emit
    let (aas1, ret) ← decoder_round aas logits early_emit
    let (aas2, accepted) ← run_rounds aas1 rest
    some (aas2, if ret = some true then sc.max_idx :: accepted else accepted)

/-- The last two elements of a list. -/
def last_two (l : List Int) : List Int := l.drop (l.length - 2)

/-- What the scan holds for the indices `lo ≤ j < n` of `l`: either no entry
exceeded the initial value (index `-1`), or the first index of the maximum
together with that maximum. Entries are compared through `F32.key`: a NaN or
minus infinity never exceeds anything. -/
def FirstMax (l : List F32) (lo n : Nat) (idx : Int) (val : F32) : Prop :=
  (idx = -1 ∧ val = scan_init.max_val ∧
    ∀ (j : Nat) (v : F32), lo ≤ j → j < n → l[j]? = some v →
      F32.key v ≤ F32.key scan_init.max_val) ∨
  (∃ i : Nat, idx = (i : Int) ∧ lo ≤ i ∧ i < n ∧ l[i]? = some val ∧
    F32.key scan_init.max_val < F32.key val ∧
    (∀ (j : Nat) (v : F32), lo ≤ j → j < n → l[j]? = some v → F32.key v ≤ F32.key val) ∧
    (∀ (j : Nat) (v : F32), lo ≤ j → j < i → l[j]? = some v → F32.key v < F32.key val))

/-- One call of `aas_run_encoder` in a sequence: the bank index read, the bank
index written, the recurrent state read and the recurrent state found in the
written bank after the call. -/
structure EncoderCall where
  read_index : Fin 2
  write_index : Fin 2
  h_in : TensorF
  c_in : TensorF
  h_out : TensorF
  c_out : TensorF

/-- A sequence of encoder invocations, one per feature segment (copied into `x`
before the call, as `fbank_pull_segments` does). -/
def run_encoders {F : Type} :
    AprilASRSession F → List TensorF → Option (AprilASRSession F × List EncoderCall)
  | aas, [] => some (aas, [])
  | aas, x :: rest => do
    let r := encoder_read_index (!aas.hc_use_0)
    let w := encoder_write_index (!aas.hc_use_0)
    let aas1 ← aas_run_encoder { aas with x := x }
    let (aas2, calls) ← run_encoders aas1 rest
    some (aas2, { read_index := r, write_index := w, h_in := aas.h r, c_in := aas.c r,
                  h_out := aas1.h w, c_out := aas1.c w } :: calls)

/-! ## Concrete inputs -/

/-- A token table of 500 tokens of length 2: token 4 is `" "`, every other token `"a"`. -/
def ex_tokens : List Char :=
  (List.replicate 4 ['a', Char.ofNat 0]).flatten ++ [' ', Char.ofNat 0] ++
    (List.replicate 495 ['a', Char.ofNat 0]).flatten

/-- Parameters of a model with 500 tokens. -/
def ex_params : ModelParameters :=
  { batch_size := 1, segment_size := 9, segment_step := 4, mel_features := 80,
    sample_rate := 16000, blank_id := 0, token_count := 500, token_length := 2,
    tokens := ex_tokens }

/-- Front-end options as `aam_create_model` sets them for `ex_params`. -/
def ex_fbank_opts : FBankOptions :=
  { sample_freq := 16000, num_bins := 80, pull_segment_count := 9, pull_segment_step := 4,
    frame_shift_ms := 10, frame_length_ms := 25, round_pow2 := true, mel_low := 20,
    mel_high := 0, snip_edges := true }

/-- A model whose joiner always produces `joiner_out` and whose encoder returns the
features as output and as next hidden state, and the features followed by the
cell state as next cell state. -/
def ex_model (joiner_out : TensorF) : AprilASRModel :=
  { encoder := fun x _ c => some (x, x, x ++ c)
    joiner := fun _ _ => some joiner_out
    x_dim := (1, 1, 2)
    h_dim := (1, 1, 2)
    c_dim := (1, 1, 2)
    eout_dim := (1, 1, 2)
    context_dim := (1, 2)
    logits_dim := (1, 1, 500)
    fbank_opts := ex_fbank_opts
    params := ex_params }

/-- A feature extractor that records the waveforms it is given and never has a
segment ready. -/
def ex_api : FBankApi (List (List ℚ)) :=
  { make_fbank := fun _ => []
    fbank_accept_waveform := fun f w => f ++ [w]
    fbank_pull_segments := fun _ _ => none
    pending := fun _ => 0
    pull_decreases := fun _ _ _ _ h => Option.noConfusion h }

/-- The finite floats with the given values. -/
def floats (l : List ℚ) : TensorF := l.map F32.fin

/-- Logits of 500 entries: `[1,1,1,9,1]` followed by ones; token 3 wins. -/
def ex_logits_emit : TensorF := floats [1, 1, 1, 9, 1] ++ List.replicate 495 (F32.fin 1)

/-- Logits of 500 entries whose maximum is at token 4 (the token `" "`). -/
def ex_logits_space : TensorF := floats [1, 1, 1, 1, 9] ++ List.replicate 495 (F32.fin 1)

/-- Logits of 500 entries: blank wins and token 1 is within 6 of it. -/
def ex_logits_peek : TensorF := floats [10, 7] ++ List.replicate 498 (F32.fin 0)

/-- Logits of 500 entries: blank wins and no other token is within 6 of it. -/
def ex_logits_blank : TensorF := floats [10, 0] ++ List.replicate 498 (F32.fin 0)

/-- Logits of a model with 501 tokens: the maximum is at the last token, 500. -/
def ex_logits_501 : TensorF :=
  (floats [0, 0] ++ List.replicate 498 (F32.fin 0)) ++ [F32.fin 9]

/-- Logits of 500 entries on which the rounding of `logits[0] -= early_emit` decides:
entry 0 is `0x1.333336p-2`, entry 1 is `-0x1.b33332p+0`, the others are `-2`. With
`early_emit = 2` the exact difference `-57042533 / 2^25` lies below entry 1 and
its binary32 rounding equals entry 1. -/
def ex_logits_tie : TensorF :=
  floats [10066331 / 33554432, -14260633 / 8388608] ++ List.replicate 498 (F32.fin (-2))

/-- Logits of 500 entries on which the rounding of `max_val - 6.0f` decides: entry 0
is `-(3 + 2^-22)`, the others are `-9`. The exact difference `-(9 + 2^-22)` lies
below `-9` and its binary32 rounding is `-9`. -/
def ex_logits_edge : TensorF :=
  floats [-12582913 / 4194304, -9] ++ List.replicate 498 (F32.fin (-9))

/-- A fresh session of the model whose joiner always produces `joiner_out`. -/
def ex_session (joiner_out : TensorF) : AprilASRSession (List (List ℚ)) :=
  aas_create_session ex_api (ex_model joiner_out)

/-- A session whose ring holds 17 tokens (all token 3). -/
def ex_session_17 : AprilASRSession (List (List ℚ)) :=
  { ex_session ex_logits_space with
    active_tokens := List.replicate 64 3
    active_token_head := 17
    logits := ex_logits_space }

/-- A sequence of four decoder rounds: blank wins, token 3 wins, blank wins with a
peek, token 4 wins. -/
def ex_rounds : List (TensorF × F32) :=
  [(ex_logits_blank, F32.fin 2), (ex_logits_emit, F32.fin 2), (ex_logits_peek, F32.fin 1),
    (ex_logits_space, F32.fin 0)]

/-- A feature extractor that records the waveforms it is given and has one segment
of two zero features ready for each waveform accepted and not yet pulled. -/
def ex_api_seg : FBankApi (List (List ℚ) × Nat) :=
  { make_fbank := fun _ => ([], 0)
    fbank_accept_waveform := fun f w => (f.1 ++ [w], f.2 + 1)
    fbank_pull_segments := fun f _ =>
      if f.2 = 0 then none else some ((f.1, f.2 - 1), [F32.fin 0, F32.fin 0])
    pending := fun f => f.2
    pull_decreases := by
      intro f n f1 x h
      by_cases h0 : f.2 = 0
      · simp [h0] at h
      · simp only [h0, if_false, Option.some.injEq, Prod.mk.injEq] at h
        rw [← h.1]
        show f.2 - 1 < f.2
        omega }

/-- A session over the token table `ex_params` in which a round can run: two
context entries, 64 ring entries, and a ring whose tokens can be printed. -/
def ExReady {F : Type} (aas : AprilASRSession F) : Prop :=
  aas.model.params = ex_params ∧ aas.context.length = 2 ∧ aas.active_tokens.length = 64 ∧
    ring_readable ex_params aas.active_tokens aas.active_token_head = true

/-- A fresh session over the extractor `ex_api_seg` of the model whose joiner always
produces `joiner_out`. -/
def ex_session_seg (joiner_out : TensorF) : AprilASRSession (List (List ℚ) × Nat) :=
  aas_create_session ex_api_seg (ex_model joiner_out)

theorem rne_intCast (n : ℤ) : rne (n : ℚ) = n := by
  unfold rne
  simp

theorem rne_mono {t u : ℚ} (h : t ≤ u) : rne t ≤ rne u := by
  have hf : ⌊t⌋ ≤ ⌊u⌋ := Int.floor_mono h
  have ht1 : rne t ≤ ⌊t⌋ + 1 := by
    unfold rne
    split_ifs <;> omega
  have hu0 : ⌊u⌋ ≤ rne u := by
    unfold rne
    split_ifs <;> omega
  rcases lt_or_eq_of_le hf with hlt | heq
  · omega
  · unfold rne
    rw [← heq]
    have hfr : t - ⌊t⌋ ≤ u - ⌊t⌋ := by linarith
    split_ifs <;> first | omega | (exfalso; linarith)

theorem rne_eq_of_abs_lt (t : ℚ) (n : ℤ) (h : |t - n| < 1 / 2) : rne t = n := by
  obtain ⟨h1, h2⟩ := abs_lt.mp h
  have hfl : ⌊t⌋ = n ∨ ⌊t⌋ = n - 1 := by
    have a1 : (n : ℚ) - 1 ≤ t := by linarith
    have a2 : t < (n : ℚ) + 1 := by linarith
    have b1 : n - 1 ≤ ⌊t⌋ := Int.le_floor.mpr (by push_cast; linarith)
    have b2 : ⌊t⌋ < n + 1 := Int.floor_lt.mpr (by push_cast; linarith)
    omega
  unfold rne
  rcases hfl with hfl | hfl
  · rw [hfl]
    have : t - (n : ℚ) < 1 / 2 := by linarith
    rw [if_pos this]
  · rw [hfl]
    have e : ((n - 1 : ℤ) : ℚ) = (n : ℚ) - 1 := by push_cast; ring
    have n1 : ¬ (t - ((n - 1 : ℤ) : ℚ) < 1 / 2) := by rw [e]; linarith
    have n2 : 1 / 2 < t - ((n - 1 : ℤ) : ℚ) := by rw [e]; linarith
    rw [if_neg n1, if_pos n2]
    omega

theorem two_zpow_pos (k : ℤ) : (0 : ℚ) < (2 : ℚ) ^ k := zpow_pos (by norm_num) k

theorem rne_nonneg {t : ℚ} (h : 0 ≤ t) : 0 ≤ rne t := by
  have := rne_mono h
  rw [show ((0 : ℚ) = ((0 : ℤ) : ℚ)) by norm_num, rne_intCast] at this
  exact this

theorem rne_two_zpow_div (a b : ℤ) (h : b ≤ a) :
    ((rne ((2 : ℚ) ^ a / (2 : ℚ) ^ b) : ℤ) : ℚ) * (2 : ℚ) ^ b = (2 : ℚ) ^ a := by
  obtain ⟨d, hd⟩ := Int.eq_ofNat_of_zero_le (sub_nonneg.mpr h)
  have hq : (2 : ℚ) ^ a / (2 : ℚ) ^ b = (((2 : ℤ) ^ d : ℤ) : ℚ) := by
    rw [← zpow_sub₀ (by norm_num : (2 : ℚ) ≠ 0), hd, zpow_natCast]
    push_cast
    rfl
  rw [hq, rne_intCast, ← hq]
  field_simp

theorem round_mag_nonneg {x : ℚ} (h : 0 ≤ x) : 0 ≤ round_mag x := by
  unfold round_mag
  have hq := two_zpow_pos (ulp_exp x)
  have : 0 ≤ rne (x / 2 ^ ulp_exp x) := rne_nonneg (div_nonneg h (le_of_lt hq))
  exact mul_nonneg (by exact_mod_cast this) (le_of_lt hq)

theorem round_mag_zero : round_mag 0 = 0 := by
  unfold round_mag
  rw [zero_div, show ((0 : ℚ) = ((0 : ℤ) : ℚ)) by norm_num, rne_intCast]
  simp

theorem ulp_exp_mono {x y : ℚ} (hx : 0 < x) (h : x ≤ y) : ulp_exp x ≤ ulp_exp y := by
  unfold ulp_exp
  have : Int.log 2 x ≤ Int.log 2 y := Int.log_mono_right hx h
  exact max_le_max (by omega) (le_refl _)

theorem round_mag_le_of_le_zpow {x : ℚ} (a : ℤ) (hxa : x ≤ (2 : ℚ) ^ a)
    (ha : ulp_exp x ≤ a) : round_mag x ≤ (2 : ℚ) ^ a := by
  unfold round_mag
  have hq := two_zpow_pos (ulp_exp x)
  have h1 : rne (x / 2 ^ ulp_exp x) ≤ rne ((2 : ℚ) ^ a / 2 ^ ulp_exp x) :=
    rne_mono (div_le_div_of_nonneg_right hxa (le_of_lt hq))
  have h2 : ((rne (x / 2 ^ ulp_exp x) : ℤ) : ℚ) ≤ (rne ((2 : ℚ) ^ a / 2 ^ ulp_exp x) : ℤ) := by
    exact_mod_cast h1
  calc ((rne (x / 2 ^ ulp_exp x) : ℤ) : ℚ) * 2 ^ ulp_exp x
      ≤ (rne ((2 : ℚ) ^ a / 2 ^ ulp_exp x) : ℤ) * 2 ^ ulp_exp x :=
        mul_le_mul_of_nonneg_right h2 (le_of_lt hq)
    _ = (2 : ℚ) ^ a := rne_two_zpow_div a _ ha

theorem le_round_mag_of_zpow_le {y : ℚ} (a : ℤ) (hya : (2 : ℚ) ^ a ≤ y)
    (ha : ulp_exp y ≤ a) : (2 : ℚ) ^ a ≤ round_mag y := by
  unfold round_mag
  have hq := two_zpow_pos (ulp_exp y)
  have h1 : rne ((2 : ℚ) ^ a / 2 ^ ulp_exp y) ≤ rne (y / 2 ^ ulp_exp y) :=
    rne_mono (div_le_div_of_nonneg_right hya (le_of_lt hq))
  have h2 : ((rne ((2 : ℚ) ^ a / 2 ^ ulp_exp y) : ℤ) : ℚ) ≤ (rne (y / 2 ^ ulp_exp y) : ℤ) := by
    exact_mod_cast h1
  calc (2 : ℚ) ^ a = (rne ((2 : ℚ) ^ a / 2 ^ ulp_exp y) : ℤ) * 2 ^ ulp_exp y :=
        (rne_two_zpow_div a _ ha).symm
    _ ≤ (rne (y / 2 ^ ulp_exp y) : ℤ) * 2 ^ ulp_exp y :=
        mul_le_mul_of_nonneg_right h2 (le_of_lt hq)

theorem round_mag_mono {x y : ℚ} (hx : 0 ≤ x) (h : x ≤ y) : round_mag x ≤ round_mag y := by
  rcases eq_or_lt_of_le hx with hx0 | hxpos
  · rw [← hx0, round_mag_zero]
    exact round_mag_nonneg (le_trans hx h)
  · have hk := ulp_exp_mono hxpos h
    rcases eq_or_lt_of_le hk with heq | hlt
    · unfold round_mag
      rw [heq]
      have hq := two_zpow_pos (ulp_exp y)
      have h1 : rne (x / 2 ^ ulp_exp y) ≤ rne (y / 2 ^ ulp_exp y) :=
        rne_mono (div_le_div_of_nonneg_right h (le_of_lt hq))
      exact mul_le_mul_of_nonneg_right (by exact_mod_cast h1) (le_of_lt hq)
    · have hypos : 0 < y := lt_of_lt_of_le hxpos h
      have hky : ulp_exp y = Int.log 2 y - 23 := by
        have h149 : -149 ≤ ulp_exp x := le_max_right _ _
        unfold ulp_exp at hlt ⊢
        rcases max_cases (Int.log 2 y - 23) (-149) with ⟨e1, _⟩ | ⟨e1, _⟩
        · exact e1
        · rw [e1] at hlt
          unfold ulp_exp at h149
          omega
      have hlogx : Int.log 2 x - 23 ≤ ulp_exp x := le_max_left _ _
      have hlog : Int.log 2 x + 1 ≤ Int.log 2 y := by omega
      have hB : (2 : ℚ) ^ Int.log 2 y ≤ y := by
        have : ((2 : ℕ) : ℚ) ^ Int.log 2 y ≤ y := Int.zpow_log_le_self (by norm_num) hypos
        exact_mod_cast this
      have hxB : x ≤ (2 : ℚ) ^ Int.log 2 y := by
        have h1 : x < ((2 : ℕ) : ℚ) ^ (Int.log 2 x + 1) :=
          Int.lt_zpow_succ_log_self (by norm_num) x
        have h2 : (2 : ℚ) ^ (Int.log 2 x + 1) ≤ (2 : ℚ) ^ Int.log 2 y :=
          zpow_le_zpow_right₀ (by norm_num) hlog
        have h1' : x < (2 : ℚ) ^ (Int.log 2 x + 1) := by exact_mod_cast h1
        exact le_of_lt (lt_of_lt_of_le h1' h2)
      calc round_mag x ≤ (2 : ℚ) ^ Int.log 2 y :=
            round_mag_le_of_le_zpow _ hxB (by omega)
        _ ≤ round_mag y := le_round_mag_of_zpow_le _ hB (by omega)

theorem round_fin_mono {x y : ℚ} (h : x ≤ y) : round_fin x ≤ round_fin y := by
  unfold round_fin
  by_cases hx : 0 ≤ x
  · have hy : 0 ≤ y := le_trans hx h
    rw [if_pos hx, if_pos hy]
    exact round_mag_mono hx h
  · rw [if_neg hx]
    have hx' : 0 ≤ -x := by linarith
    by_cases hy : 0 ≤ y
    · rw [if_pos hy]
      have := round_mag_nonneg hx'
      have := round_mag_nonneg hy
      linarith
    · rw [if_neg hy]
      have hy' : 0 ≤ -y := by linarith
      have := round_mag_mono hy' (by linarith : -y ≤ -x)
      linarith

theorem log_eq_of_bounds (x : ℚ) (e : ℤ) (h1 : (2 : ℚ) ^ e ≤ x) (h2 : x < (2 : ℚ) ^ (e + 1)) :
    Int.log 2 x = e := by
  have hx : 0 < x := lt_of_lt_of_le (two_zpow_pos e) h1
  have a1 : e ≤ Int.log 2 x :=
    (Int.zpow_le_iff_le_log (by norm_num : 1 < (2 : ℕ)) hx).mp (by exact_mod_cast h1)
  have a2 : Int.log 2 x < e + 1 :=
    (Int.lt_zpow_iff_log_lt (by norm_num : 1 < (2 : ℕ)) hx).mp (by exact_mod_cast h2)
  omega

theorem round_mag_eval (x : ℚ) (e n : ℤ) (h1 : (2 : ℚ) ^ e ≤ x) (h2 : x < (2 : ℚ) ^ (e + 1))
    (he : -126 ≤ e) (hn : |x / (2 : ℚ) ^ (e - 23) - n| < 1 / 2) :
    round_mag x = (n : ℚ) * (2 : ℚ) ^ (e - 23) := by
  have hlog := log_eq_of_bounds x e h1 h2
  have hk : ulp_exp x = e - 23 := by
    unfold ulp_exp
    rw [hlog]
    exact max_eq_left (by omega)
  unfold round_mag
  rw [hk, rne_eq_of_abs_lt _ n hn]

theorem round32_zero : round32 0 = F32.fin 0 := by
  have h : round_fin 0 = 0 := by
    unfold round_fin
    rw [if_pos (le_refl _), round_mag_zero]
  unfold round32
  rw [h]
  norm_num

theorem round32_pos (x r : ℚ) (hx : 0 ≤ x) (hr : round_mag x = r) (hlt : r < (2 : ℚ) ^ 128) :
    round32 x = F32.fin r := by
  have h0 : 0 ≤ r := hr ▸ round_mag_nonneg hx
  have h : round_fin x = r := by
    unfold round_fin
    rw [if_pos hx, hr]
  unfold round32
  rw [h, if_neg (not_le.mpr hlt), if_neg]
  have : (0 : ℚ) < (2 : ℚ) ^ 128 := by norm_num
  linarith

theorem round32_neg (x r : ℚ) (hx : 0 < x) (hr : round_mag x = r) (hlt : r < (2 : ℚ) ^ 128) :
    round32 (-x) = F32.fin (-r) := by
  have h : round_fin (-x) = -r := by
    unfold round_fin
    rw [if_neg (by linarith), neg_neg, hr]
  unfold round32
  have h0 : 0 ≤ r := hr ▸ round_mag_nonneg (le_of_lt hx)
  have hp : (0 : ℚ) < (2 : ℚ) ^ 128 := by norm_num
  rw [h, if_neg (by linarith), if_neg (by linarith)]

theorem round32_sentinel : round32 (-9999999999) = F32.fin (-10000000000) := by
  have hm : round_mag 9999999999 = 10000000000 := by
    rw [round_mag_eval 9999999999 33 9765625 (by norm_num) (by norm_num) (by norm_num)
      (by rw [abs_lt]; constructor <;> norm_num)]
    norm_num
  exact round32_neg 9999999999 10000000000 (by norm_num) hm (by norm_num)

theorem scan_init_max_val : scan_init.max_val = F32.fin (-10000000000) := round32_sentinel

theorem scan_init_max_val_non0 : scan_init.max_val_non0 = F32.fin (-10000000000) :=
  round32_sentinel

theorem key_fin_lt (x y : ℚ) : F32.key (F32.fin x) < F32.key (F32.fin y) ↔ x < y := by
  simp [F32.key]

theorem key_fin_le (x y : ℚ) : F32.key (F32.fin x) ≤ F32.key (F32.fin y) ↔ x ≤ y := by
  simp [F32.key]

theorem gt_iff_key (v m : F32) (hm : m ≠ F32.nan) :
    F32.gt v m = true ↔ F32.key m < F32.key v := by
  cases v <;> cases m <;> simp [F32.gt, F32.key] at hm ⊢
  exact WithBot.coe_lt_coe.mpr (WithTop.coe_lt_top _)

theorem ne_nan_of_key_lt (a b : F32) (h : F32.key a < F32.key b) : b ≠ F32.nan := by
  intro hb
  rw [hb] at h
  exact absurd h (by simp [F32.key])

theorem round32_key_mono {x y : ℚ} (h : x ≤ y) :
    F32.key (round32 x) ≤ F32.key (round32 y) := by
  have hm := round_fin_mono h
  have hp : (0 : ℚ) < (2 : ℚ) ^ 128 := by norm_num
  unfold round32
  by_cases h1 : (2 : ℚ) ^ 128 ≤ round_fin y
  · rw [if_pos h1]
    split_ifs <;> simp [F32.key]
  · rw [if_neg h1]
    have h1x : ¬ (2 : ℚ) ^ 128 ≤ round_fin x := fun hx => h1 (le_trans hx hm)
    rw [if_neg h1x]
    by_cases h2 : round_fin x ≤ -(2 : ℚ) ^ 128
    · rw [if_pos h2]
      simp [F32.key]
    · rw [if_neg h2]
      have h2y : ¬ round_fin y ≤ -(2 : ℚ) ^ 128 := fun hy => h2 (le_trans hm hy)
      rw [if_neg h2y]
      exact (key_fin_le _ _).mpr hm

theorem sub_key_anti (l e1 e2 : F32) (h : F32.le e1 e2 = true) :
    F32.key (F32.sub l e2) ≤ F32.key (F32.sub l e1) := by
  cases l <;> cases e1 <;> cases e2 <;> simp [F32.le] at h <;>
    first
      | exact le_refl _
      | exact le_top
      | (simp only [F32.sub, F32.key]; exact bot_le)
      | (simp only [F32.sub]; exact round32_key_mono (by linarith))

theorem round_mag_exact (x : ℚ) (N : ℤ) (hN : x / (2 : ℚ) ^ ulp_exp x = N) :
    round_mag x = x := by
  unfold round_mag
  rw [hN, rne_intCast, ← hN]
  have := two_zpow_pos (ulp_exp x)
  field_simp

theorem round_mag_int (z : ℤ) (h0 : 0 < z) (h : z < 2 ^ 24) : round_mag (z : ℚ) = z := by
  have hz : (0 : ℚ) < (z : ℚ) := by exact_mod_cast h0
  have hlo : 0 ≤ Int.log 2 (z : ℚ) := by
    have : Int.log 2 (1 : ℚ) ≤ Int.log 2 (z : ℚ) :=
      Int.log_mono_right (by norm_num) (by exact_mod_cast h0)
    rwa [Int.log_one_right] at this
  have hhi : Int.log 2 (z : ℚ) < 24 := by
    apply (Int.lt_zpow_iff_log_lt (by norm_num : 1 < (2 : ℕ)) hz).mp
    have : (z : ℚ) < (2 : ℚ) ^ (24 : ℤ) := by
      have h1 : (z : ℚ) < ((2 ^ 24 : ℤ) : ℚ) := by exact_mod_cast h
      norm_num at h1 ⊢
      exact h1
    exact_mod_cast this
  have hk : ulp_exp (z : ℚ) = Int.log 2 (z : ℚ) - 23 := by
    unfold ulp_exp
    exact max_eq_left (by omega)
  obtain ⟨d, hd⟩ := Int.eq_ofNat_of_zero_le (show 0 ≤ 23 - Int.log 2 (z : ℚ) by omega)
  apply round_mag_exact (z : ℚ) (z * 2 ^ d)
  rw [hk, show Int.log 2 (z : ℚ) - 23 = -(23 - Int.log 2 (z : ℚ)) by ring, hd, zpow_neg,
    zpow_natCast]
  push_cast
  field_simp

theorem round32_int (x : ℚ) (z : ℤ) (hx : x = z) (h : |z| < 2 ^ 24) :
    round32 x = F32.fin x := by
  subst hx
  obtain ⟨h1, h2⟩ := abs_lt.mp h
  have hbig : ((2 : ℚ) ^ 24) < (2 : ℚ) ^ 128 := by norm_num
  rcases lt_trichotomy z 0 with hneg | hzero | hpos
  · have hm := round_mag_int (-z) (by omega) (by omega)
    have hlt : ((-z : ℤ) : ℚ) < (2 : ℚ) ^ 128 := by
      have : ((-z : ℤ) : ℚ) < ((2 ^ 24 : ℤ) : ℚ) := by exact_mod_cast (by omega : -z < 2 ^ 24)
      push_cast at this ⊢
      linarith
    have := round32_neg ((-z : ℤ) : ℚ) ((-z : ℤ) : ℚ) (by exact_mod_cast (by omega : 0 < -z))
      hm hlt
    push_cast at this
    rw [neg_neg] at this
    exact this
  · subst hzero
    simpa using round32_zero
  · have hm := round_mag_int z hpos h2
    have hlt : (z : ℚ) < (2 : ℚ) ^ 128 := by
      have : (z : ℚ) < ((2 ^ 24 : ℤ) : ℚ) := by exact_mod_cast h2
      push_cast at this
      linarith
    exact round32_pos (z : ℚ) (z : ℚ) (by exact_mod_cast (le_of_lt hpos)) hm hlt

theorem sub_fin_int (a b : ℚ) (z : ℤ) (hz : a - b = z) (h : |z| < 2 ^ 24) :
    F32.sub (F32.fin a) (F32.fin b) = F32.fin (a - b) :=
  round32_int (a - b) z hz h

theorem scan_init_eq :
    scan_init = { max_idx := -1, max_idx_non0 := -1, max_val := F32.fin (-10000000000),
                  max_val_non0 := F32.fin (-10000000000) } := by
  unfold scan_init
  rw [round32_sentinel]

/-! ## Lemmas on the scan -/

theorem scan_after_some_le (l : List F32) (n : Nat) (st : Scan) (h : scan_after l n = some st) :
    n ≤ l.length := by
  induction n generalizing st with
  | zero => exact Nat.zero_le _
  | succ n ih =>
    simp only [scan_after, Option.bind_eq_some] at h
    obtain ⟨st0, h0, h1⟩ := h
    unfold scan_step at h1
    cases hv : l[n]? with
    | none => simp [hv] at h1
    | some v =>
      have := (List.getElem?_eq_some_iff.mp hv).1
      omega

theorem scan_after_isSome (l : List F32) (n : Nat) (h : n ≤ l.length) :
    ∃ st, scan_after l n = some st := by
  induction n with
  | zero => exact ⟨_, rfl⟩
  | succ n ih =>
    obtain ⟨st0, h0⟩ := ih (by omega)
    have hn : n < l.length := by omega
    simp only [scan_after, h0, Option.some_bind, scan_step, List.getElem?_eq_getElem hn]
    exact ⟨_, rfl⟩

theorem firstMax_init (l : List F32) (lo : Nat) : FirstMax l lo 0 (-1) scan_init.max_val :=
  Or.inl ⟨rfl, rfl, fun _ _ _ h _ => absurd h (Nat.not_lt_zero _)⟩

theorem firstMax_val_ne_nan (l : List F32) (lo n : Nat) (idx : Int) (val : F32)
    (h : FirstMax l lo n idx val) : val ≠ F32.nan := by
  rcases h with ⟨_, hval, _⟩ | ⟨i, _, _, _, _, hlt, _, _⟩
  · rw [hval, scan_init_max_val]
    exact fun hc => F32.noConfusion hc
  · exact ne_nan_of_key_lt _ _ hlt

theorem firstMax_keep (l : List F32) (lo n : Nat) (idx : Int) (val v : F32)
    (hv : l[n]? = some v) (h : FirstMax l lo n idx val)
    (hc : ¬ (F32.gt v val = true ∧ lo ≤ n)) :
    FirstMax l lo (n + 1) idx val := by
  have hnan := firstMax_val_ne_nan l lo n idx val h
  have hlast : ∀ w, lo ≤ n → l[n]? = some w → F32.key w ≤ F32.key val := by
    intro w hlo hw
    rw [hv] at hw
    cases hw
    exact not_lt.mp (fun hgt => hc ⟨(gt_iff_key v val hnan).mpr hgt, hlo⟩)
  rcases h with ⟨hidx, hval, hall⟩ | ⟨i, hidx, hlo, hin, hiv, hlt, hall, hfirst⟩
  · left
    refine ⟨hidx, hval, ?_⟩
    intro j w hj hjn hw
    rcases Nat.lt_succ_iff_lt_or_eq.mp hjn with hlt | heq
    · exact hall j w hj hlt hw
    · subst heq
      rw [← hval]
      exact hlast w hj hw
  · right
    refine ⟨i, hidx, hlo, Nat.lt_succ_of_lt hin, hiv, hlt, ?_, hfirst⟩
    intro j w hj hjn hw
    rcases Nat.lt_succ_iff_lt_or_eq.mp hjn with hlt2 | heq
    · exact hall j w hj hlt2 hw
    · subst heq
      exact hlast w hj hw

theorem firstMax_take (l : List F32) (lo n : Nat) (idx : Int) (val v : F32)
    (hv : l[n]? = some v) (h : FirstMax l lo n idx val) (hgtb : F32.gt v val = true)
    (hlo : lo ≤ n) :
    FirstMax l lo (n + 1) (n : Int) v := by
  have hnan := firstMax_val_ne_nan l lo n idx val h
  have hgt : F32.key val < F32.key v := (gt_iff_key v val hnan).mp hgtb
  have hprev : ∀ (j : Nat) (w : F32), lo ≤ j → j < n → l[j]? = some w →
      F32.key w ≤ F32.key val := by
    rcases h with ⟨_, hval, hall⟩ | ⟨i, _, _, _, _, _, hall, _⟩
    · intro j w hj hjn hw
      rw [hval]
      exact hall j w hj hjn hw
    · exact hall
  have hsent : F32.key scan_init.max_val < F32.key v := by
    rcases h with ⟨_, hval, _⟩ | ⟨i, _, _, _, _, hlt, _, _⟩
    · rw [hval] at hgt; exact hgt
    · exact lt_trans hlt hgt
  right
  refine ⟨n, rfl, hlo, Nat.lt_succ_self _, hv, hsent, ?_, ?_⟩
  · intro j w hj hjn hw
    rcases Nat.lt_succ_iff_lt_or_eq.mp hjn with hlt | heq
    · exact le_of_lt (lt_of_le_of_lt (hprev j w hj hlt hw) hgt)
    · subst heq
      rw [hv] at hw
      cases hw
      exact le_refl _
  · intro j w hj hjn hw
    exact lt_of_le_of_lt (hprev j w hj hjn hw) hgt

theorem scan_step_firstMax (l : List F32) (n : Nat) (st st1 : Scan)
    (h0 : FirstMax l 0 n st.max_idx st.max_val)
    (h1 : FirstMax l 1 n st.max_idx_non0 st.max_val_non0)
    (hs : scan_step l st n = some st1) :
    FirstMax l 0 (n + 1) st1.max_idx st1.max_val ∧
    FirstMax l 1 (n + 1) st1.max_idx_non0 st1.max_val_non0 := by
  unfold scan_step at hs
  cases hv : l[n]? with
  | none => simp [hv] at hs
  | some v =>
    simp only [hv, Option.some.injEq] at hs
    subst hs
    constructor
    · by_cases hgt : F32.gt v st.max_val = true
      · have key := firstMax_take l 0 n _ _ v hv h0 hgt (Nat.zero_le _)
        rw [if_pos hgt]
        split_ifs <;> exact key
      · have key := firstMax_keep l 0 n _ _ v hv h0 (fun hc => hgt hc.1)
        rw [if_neg hgt]
        split_ifs <;> exact key
    · have hsame : (if F32.gt v st.max_val = true then
            { st with max_idx := (n : Int), max_val := v }
          else st).max_val_non0 = st.max_val_non0 := by
        split_ifs <;> rfl
      have hsame2 : (if F32.gt v st.max_val = true then
            { st with max_idx := (n : Int), max_val := v }
          else st).max_idx_non0 = st.max_idx_non0 := by
        split_ifs <;> rfl
      by_cases hc : F32.gt v st.max_val_non0 = true ∧ n > 0
      · have key := firstMax_take l 1 n _ _ v hv h1 hc.1 hc.2
        rw [hsame, if_pos hc]
        exact key
      · have key := firstMax_keep l 1 n _ _ v hv h1 hc
        rw [hsame, if_neg hc, hsame2, hsame]
        exact key

theorem scan_after_firstMax (l : List F32) (n : Nat) (st : Scan) (h : scan_after l n = some st) :
    FirstMax l 0 n st.max_idx st.max_val ∧ FirstMax l 1 n st.max_idx_non0 st.max_val_non0 := by
  induction n generalizing st with
  | zero =>
    simp only [scan_after, Option.some.injEq] at h
    subst h
    exact ⟨firstMax_init l 0, firstMax_init l 1⟩
  | succ n ih =>
    simp only [scan_after, Option.bind_eq_some] at h
    obtain ⟨st0, h0, h1⟩ := h
    obtain ⟨a, b⟩ := ih st0 h0
    exact scan_step_firstMax l n st0 st a b h1

theorem firstMax_unique (l : List F32) (lo n : Nat) (idx idx1 : Int)
    (val val1 : F32) (h : FirstMax l lo n idx val) (h1 : FirstMax l lo n idx1 val1) :
    idx = idx1 ∧ val = val1 := by
  rcases h with ⟨hidx, hval, hall⟩ | ⟨i, hidx, hlo, hin, hiv, hlt, hall, hfirst⟩
  · rcases h1 with ⟨hidx1, hval1, _⟩ | ⟨i1, _, hlo1, hin1, hiv1, hlt1, _, _⟩
    · exact ⟨hidx.trans hidx1.symm, hval.trans hval1.symm⟩
    · exact absurd (hall i1 val1 hlo1 hin1 hiv1) (not_le.mpr hlt1)
  · rcases h1 with ⟨_, _, hall1⟩ | ⟨i1, hidx1, hlo1, hin1, hiv1, _, hall1, hfirst1⟩
    · exact absurd (hall1 i val hlo hin hiv) (not_le.mpr hlt)
    · have hii : i = i1 := by
        rcases Nat.lt_trichotomy i i1 with hlt2 | heq | hgt2
        · exact absurd (hall i1 val1 hlo1 hin1 hiv1) (not_le.mpr (hfirst1 i val hlo hlt2 hiv))
        · exact heq
        · exact absurd (hall1 i val hlo hin hiv) (not_le.mpr (hfirst i1 val1 hlo1 hgt2 hiv1))
      subst hii
      rw [hiv] at hiv1
      exact ⟨hidx.trans hidx1.symm, Option.some.inj hiv1⟩

theorem scan_after_append_left (l r : List F32) (n : Nat) (h : n ≤ l.length) :
    scan_after (l ++ r) n = scan_after l n := by
  induction n with
  | zero => rfl
  | succ n ih =>
    have hn : n < l.length := by omega
    simp only [scan_after, ih (by omega), scan_step, List.getElem?_append_left hn]

theorem scan_after_pad_aux (l : List F32) (c : F32) (st : Scan)
    (h : scan_after l l.length = some st)
    (h1 : F32.gt c st.max_val = false) (h2 : F32.gt c st.max_val_non0 = false) (k : Nat) :
    scan_after (l ++ List.replicate k c) (l.length + k) = some st := by
  induction k with
  | zero => simpa using h
  | succ k ih =>
    have hsplit : l ++ List.replicate (k + 1) c = (l ++ List.replicate k c) ++ [c] := by
      rw [List.replicate_succ', List.append_assoc]
    have hlen : (l ++ List.replicate k c).length = l.length + k := by simp
    have hget : ((l ++ List.replicate k c) ++ [c])[l.length + k]? = some c := by
      rw [List.getElem?_append_right (by omega)]
      simp [hlen]
    have hprev : scan_after ((l ++ List.replicate k c) ++ [c]) (l.length + k) = some st := by
      rw [scan_after_append_left _ _ _ (by omega)]
      exact ih
    rw [hsplit, ← Nat.add_assoc]
    simp only [scan_after, hprev, Option.some_bind, scan_step, hget]
    simp [h1, h2]

theorem firstMax_congr (l l1 : List F32) (lo n : Nat) (idx : Int) (val : F32)
    (hsame : ∀ j, lo ≤ j → j < n → l1[j]? = l[j]?) (h : FirstMax l lo n idx val) :
    FirstMax l1 lo n idx val := by
  rcases h with ⟨hidx, hval, hall⟩ | ⟨i, hidx, hlo, hin, hiv, hlt, hall, hfirst⟩
  · left
    exact ⟨hidx, hval, fun j v hj hjn hv =>
      hall j v hj hjn (by rw [← hsame j hj hjn]; exact hv)⟩
  · right
    refine ⟨i, hidx, hlo, hin, by rw [hsame i hlo hin]; exact hiv, hlt, ?_, ?_⟩
    · exact fun j v hj hjn hv => hall j v hj hjn (by rw [← hsame j hj hjn]; exact hv)
    · exact fun j v hj hji hv =>
        hfirst j v hj hji (by rw [← hsame j hj (lt_trans hji hin)]; exact hv)

theorem firstMax_lower_head (a b : F32) (rest : List F32) (n : Nat) (idx : Int) (val : F32)
    (hba : F32.key b ≤ F32.key a) (hidx : idx ≠ 0) (h : FirstMax (a :: rest) 0 n idx val) :
    FirstMax (b :: rest) 0 n idx val := by
  have hpt : ∀ (j : Nat) (v : F32), (b :: rest)[j]? = some v →
      ∃ w, (a :: rest)[j]? = some w ∧ F32.key v ≤ F32.key w := by
    intro j v hv
    cases j with
    | zero =>
      simp only [List.getElem?_cons_zero, Option.some.injEq] at hv
      exact ⟨a, by simp, by rw [← hv]; exact hba⟩
    | succ j => exact ⟨v, by simpa using hv, le_refl _⟩
  rcases h with ⟨hi, hval, hall⟩ | ⟨i, hi, hlo, hin, hiv, hlt, hall, hfirst⟩
  · left
    refine ⟨hi, hval, ?_⟩
    intro j v hj hjn hv
    obtain ⟨w, hw, hvw⟩ := hpt j v hv
    exact le_trans hvw (hall j w hj hjn hw)
  · right
    have hi0 : i ≠ 0 := by
      intro h0
      apply hidx
      rw [hi, h0]
      rfl
    obtain ⟨k, rfl⟩ := Nat.exists_eq_succ_of_ne_zero hi0
    refine ⟨k + 1, hi, hlo, hin, by simpa using hiv, hlt, ?_, ?_⟩
    · intro j v hj hjn hv
      obtain ⟨w, hw, hvw⟩ := hpt j v hv
      exact le_trans hvw (hall j w hj hjn hw)
    · intro j v hj hji hv
      obtain ⟨w, hw, hvw⟩ := hpt j v hv
      exact lt_of_le_of_lt hvw (hfirst j w hj hji hw)

theorem scan_eq_of_firstMax (l : List F32) (n : Nat) (st : Scan) (sc : Scan)
    (h : scan_after l n = some st)
    (h0 : FirstMax l 0 n sc.max_idx sc.max_val)
    (h1 : FirstMax l 1 n sc.max_idx_non0 sc.max_val_non0) : st = sc := by
  obtain ⟨a, b⟩ := scan_after_firstMax l n st h
  obtain ⟨e1, e2⟩ := firstMax_unique l 0 n _ _ _ _ a h0
  obtain ⟨e3, e4⟩ := firstMax_unique l 1 n _ _ _ _ b h1
  cases st
  cases sc
  simp only at e1 e2 e3 e4
  simp [e1, e2, e3, e4]

theorem biased_scan_mono (l : List F32) (e1 e2 : F32) (sc : Scan) (he : F32.le e1 e2 = true)
    (h : biased_scan l e1 = some sc) (hidx : sc.max_idx ≠ 0) :
    biased_scan l e2 = some sc := by
  cases l with
  | nil => simp [biased_scan, bias_blank] at h
  | cons l0 rest =>
    simp only [biased_scan, bias_blank, Option.some_bind] at h ⊢
    have hlen := scan_after_some_le _ _ _ h
    obtain ⟨st, hst⟩ := scan_after_isSome (F32.sub l0 e2 :: rest) 500 (by simpa using hlen)
    obtain ⟨a, b⟩ := scan_after_firstMax _ _ _ h
    have heq : st = sc := by
      apply scan_eq_of_firstMax _ _ _ _ hst
      · exact firstMax_lower_head (F32.sub l0 e1) (F32.sub l0 e2) rest 500 _ _
          (sub_key_anti l0 e1 e2 he) hidx a
      · apply firstMax_congr _ _ _ _ _ _ _ b
        intro j hj _
        obtain ⟨k, rfl⟩ := Nat.exists_eq_succ_of_ne_zero (Nat.pos_iff_ne_zero.mp hj)
        simp
    rw [hst, heq]

theorem scan_after_pad (l : List F32) (c : F32) (st : Scan) (k m n : Nat) (hm : m = l.length)
    (hn : n = m + k) (h : scan_after l m = some st)
    (h1 : F32.gt c st.max_val = false) (h2 : F32.gt c st.max_val_non0 = false) :
    scan_after (l ++ List.replicate k c) n = some st := by
  subst hm
  subst hn
  exact scan_after_pad_aux l c st h h1 h2 k

/-! ## Lemmas on `aas_process_logits` -/

theorem accept_branch_inv {F : Type} (aas aas1 : AprilASRSession F) (t : Int) (r : Option Bool)
    (h : accept_branch aas t = some (aas1, r)) :
    r = some true ∧
      ∃ head active_tokens c1 context0 context,
        ring_reset_check aas.model.params aas.active_token_head t = some head ∧
        array_write aas.active_tokens head t = some active_tokens ∧
        aas.context[1]? = some c1 ∧
        array_write aas.context 0 c1 = some context0 ∧
        array_write context0 1 t = some context ∧
        (get_token aas.model.params t).isSome = true ∧
        aas1 = { aas with active_tokens := active_tokens, active_token_head := head + 1,
                          context := context } := by
  unfold accept_branch at h
  simp only [bind, Option.bind_eq_some] at h
  obtain ⟨head, h1, at1, h2, c1, h3, ctx0, h4, ctx, h5, tok, h6, h7⟩ := h
  simp only [Option.some.injEq, Prod.mk.injEq] at h7
  exact ⟨h7.2.symm, head, at1, c1, ctx0, ctx, h1, h2, h3, h4, h5, by simp [h6], h7.1.symm⟩

theorem blank_branch_inv {F : Type} (aas aas1 : AprilASRSession F) (sc : Scan) (r : Option Bool)
    (h : blank_branch aas sc = some (aas1, r)) : aas1 = aas ∧ r ≠ some true := by
  unfold blank_branch at h
  dsimp only at h
  repeat' split at h
  all_goals first
    | (cases h; done)
    | (cases h; exact ⟨rfl, by decide⟩)

theorem process_logits_inv {F : Type} (aas aas1 : AprilASRSession F) (e : F32) (r : Option Bool)
    (h : aas_process_logits aas e = some (aas1, r)) :
    ∃ logits sc, bias_blank aas.logits e = some logits ∧ scan_after logits 500 = some sc ∧
      ring_readable aas.model.params aas.active_tokens aas.active_token_head = true ∧
      ((sc.max_idx ≠ 0 ∧ accept_branch { aas with logits := logits } sc.max_idx = some (aas1, r)) ∨
       (sc.max_idx = 0 ∧ r ≠ some true ∧ aas1 = { aas with logits := logits })) := by
  unfold aas_process_logits at h
  dsimp only at h
  cases hl : bias_blank aas.logits e with
  | none => simp [hl] at h
  | some logits =>
    cases hsc : scan_after logits 500 with
    | none => simp [hl, hsc] at h
    | some sc =>
      simp only [hl, hsc] at h
      by_cases hr : ring_readable aas.model.params aas.active_tokens aas.active_token_head = true
      · rw [if_pos hr] at h
        refine ⟨logits, sc, rfl, hsc, hr, ?_⟩
        by_cases hm : sc.max_idx ≠ 0
        · rw [if_pos hm] at h
          exact Or.inl ⟨hm, h⟩
        · rw [if_neg hm] at h
          obtain ⟨h1, h2⟩ := blank_branch_inv _ _ _ _ h
          exact Or.inr ⟨not_not.mp hm, h2, h1⟩
      · rw [if_neg hr] at h
        exact absurd h (by simp)

/-- On a run without fault, `aas_process_logits` returns `true` exactly when the
scan ended with `max_idx != 0`. -/
theorem process_logits_true_iff {F : Type} (aas aas1 : AprilASRSession F) (e : F32)
    (r : Option Bool) (sc : Scan) (h : aas_process_logits aas e = some (aas1, r))
    (hsc : biased_scan aas.logits e = some sc) : r = some true ↔ sc.max_idx ≠ 0 := by
  obtain ⟨logits, sc1, hl, hs, _, hcase⟩ := process_logits_inv aas aas1 e r h
  have : sc1 = sc := by
    simp only [biased_scan, hl, Option.some_bind] at hsc
    rw [hs] at hsc
    exact Option.some.inj hsc
  subst this
  rcases hcase with ⟨hm, hacc⟩ | ⟨hm, hr, _⟩
  · exact ⟨fun _ => hm, fun _ => (accept_branch_inv _ _ _ _ hacc).1⟩
  · exact ⟨fun h1 => absurd h1 hr, fun h1 => absurd hm h1⟩

/-! ## Evaluation of one round -/

theorem process_logits_eval {F : Type} (aas : AprilASRSession F) (e : F32) (logits : TensorF)
    (sc : Scan) (hl : bias_blank aas.logits e = some logits)
    (hsc : biased_scan aas.logits e = some sc)
    (hr : ring_readable aas.model.params aas.active_tokens aas.active_token_head = true) :
    aas_process_logits aas e =
      if sc.max_idx ≠ 0 then accept_branch { aas with logits := logits } sc.max_idx
      else blank_branch { aas with logits := logits } sc := by
  have hs : scan_after logits 500 = some sc := by
    simpa only [biased_scan, hl, Option.some_bind] using hsc
  unfold aas_process_logits
  simp only [hl, hs, hr, if_true]

theorem biased_scan_eval (a b : F32) (front : List F32) (c : F32) (k m : Nat) (e : F32)
    (sc : Scan) (hsub : F32.sub a e = b)
    (hm : m = (b :: front).length) (hn : 500 = m + k)
    (h : scan_after (b :: front) m = some sc)
    (h1 : F32.gt c sc.max_val = false) (h2 : F32.gt c sc.max_val_non0 = false) :
    biased_scan ((a :: front) ++ List.replicate k c) e = some sc := by
  have hl : bias_blank ((a :: front) ++ List.replicate k c) e =
      some ((b :: front) ++ List.replicate k c) := by
    rw [← hsub]
    rfl
  rw [biased_scan, hl, Option.some_bind]
  exact scan_after_pad (b :: front) c sc k m 500 hm hn h h1 h2

theorem le_fin_of_le (a b : ℚ) (h : a ≤ b) : F32.le (F32.fin a) (F32.fin b) = true := by
  simp [F32.le, h]

theorem scan_ex_emit (e : ℚ) (he : 0 ≤ e) :
    biased_scan ex_logits_emit (F32.fin e) =
      some { max_idx := 3, max_idx_non0 := 3, max_val := F32.fin 9,
             max_val_non0 := F32.fin 9 } := by
  have h0 : biased_scan ex_logits_emit (F32.fin 0) =
      some { max_idx := 3, max_idx_non0 := 3, max_val := F32.fin 9,
             max_val_non0 := F32.fin 9 } := by
    apply biased_scan_eval (F32.fin 1) (F32.fin 1) (floats [1, 1, 9, 1]) (F32.fin 1) 495 5
    · rw [sub_fin_int 1 0 1 (by norm_num) (by norm_num)]
      norm_num
    · rfl
    · rfl
    · norm_num [scan_after, scan_step, scan_init_eq, F32.gt, floats]
    · simp [F32.gt]
    · simp [F32.gt]
  exact biased_scan_mono _ (F32.fin 0) (F32.fin e) _ (le_fin_of_le 0 e he) h0 (by decide)

theorem scan_ex_space (e : ℚ) (he : 0 ≤ e) :
    biased_scan ex_logits_space (F32.fin e) =
      some { max_idx := 4, max_idx_non0 := 4, max_val := F32.fin 9,
             max_val_non0 := F32.fin 9 } := by
  have h0 : biased_scan ex_logits_space (F32.fin 0) =
      some { max_idx := 4, max_idx_non0 := 4, max_val := F32.fin 9,
             max_val_non0 := F32.fin 9 } := by
    apply biased_scan_eval (F32.fin 1) (F32.fin 1) (floats [1, 1, 1, 9]) (F32.fin 1) 495 5
    · rw [sub_fin_int 1 0 1 (by norm_num) (by norm_num)]
      norm_num
    · rfl
    · rfl
    · norm_num [scan_after, scan_step, scan_init_eq, F32.gt, floats]
    · simp [F32.gt]
    · simp [F32.gt]
  exact biased_scan_mono _ (F32.fin 0) (F32.fin e) _ (le_fin_of_le 0 e he) h0 (by decide)

theorem scan_ex_blank :
    biased_scan ex_logits_blank (F32.fin 2) =
      some { max_idx := 0, max_idx_non0 := 1, max_val := F32.fin 8,
             max_val_non0 := F32.fin 0 } := by
  apply biased_scan_eval (F32.fin 10) (F32.fin 8) (floats [0]) (F32.fin 0) 498 2
  · rw [sub_fin_int 10 2 8 (by norm_num) (by norm_num)]
    norm_num
  · rfl
  · rfl
  · norm_num [scan_after, scan_step, scan_init_eq, F32.gt, floats]
  · simp [F32.gt]
  · simp [F32.gt]

theorem scan_ex_peek_1 :
    biased_scan ex_logits_peek (F32.fin 1) =
      some { max_idx := 0, max_idx_non0 := 1, max_val := F32.fin 9,
             max_val_non0 := F32.fin 7 } := by
  apply biased_scan_eval (F32.fin 10) (F32.fin 9) (floats [7]) (F32.fin 0) 498 2
  · rw [sub_fin_int 10 1 9 (by norm_num) (by norm_num)]
    norm_num
  · rfl
  · rfl
  · norm_num [scan_after, scan_step, scan_init_eq, F32.gt, floats]
  · simp [F32.gt]
  · simp [F32.gt]

theorem scan_ex_peek_2 :
    biased_scan ex_logits_peek (F32.fin 2) =
      some { max_idx := 0, max_idx_non0 := 1, max_val := F32.fin 8,
             max_val_non0 := F32.fin 7 } := by
  apply biased_scan_eval (F32.fin 10) (F32.fin 8) (floats [7]) (F32.fin 0) 498 2
  · rw [sub_fin_int 10 2 8 (by norm_num) (by norm_num)]
    norm_num
  · rfl
  · rfl
  · norm_num [scan_after, scan_step, scan_init_eq, F32.gt, floats]
  · simp [F32.gt]
  · simp [F32.gt]

theorem ex_session_joiner (l : TensorF) :
    aas_run_joiner (ex_session l) = some { ex_session l with logits := l } := rfl

theorem ex_session_context (l : TensorF) : (ex_session l).context = [0, 0] := rfl

theorem blank_branch_no_return {F : Type} (aas : AprilASRSession F) (sc : Scan) (c1 : Int)
    (hc : aas.context[1]? = some c1) (hne : c1 ≠ sc.max_idx_non0)
    (hfar : F32.gt sc.max_val_non0 (F32.sub sc.max_val (F32.fin 6)) = false) :
    blank_branch aas sc = some (aas, none) := by
  unfold blank_branch
  simp only [hc, hne, hfar, ne_eq, not_false_eq_true, if_true, if_false, ite_self,
    Bool.false_eq_true]

theorem blank_branch_peek {F : Type} (aas : AprilASRSession F) (sc : Scan) (c1 : Int)
    (tok : List Char) (h0 : sc.max_idx = 0)
    (hc : aas.context[1]? = some c1) (hne : c1 ≠ sc.max_idx_non0)
    (hnear : F32.gt sc.max_val_non0 (F32.sub sc.max_val (F32.fin 6)) = true)
    (hhead : aas.active_token_head ≤ 16)
    (htok : get_token aas.model.params sc.max_idx_non0 = some tok) :
    blank_branch aas sc = some (aas, some false) := by
  unfold blank_branch
  simp only [h0, hc, hne, hnear, hhead, htok, ne_eq, not_false_eq_true, if_true]

theorem ex_blank_round :
    ∃ lg : TensorF,
      aas_process_logits { ex_session ex_logits_blank with logits := ex_logits_blank }
        (F32.fin 2) = some ({ ex_session ex_logits_blank with logits := lg }, none) := by
  obtain ⟨lg, hl⟩ : ∃ lg, bias_blank ex_logits_blank (F32.fin 2) = some lg := ⟨_, rfl⟩
  refine ⟨lg, ?_⟩
  rw [process_logits_eval { ex_session ex_logits_blank with logits := ex_logits_blank }
    (F32.fin 2) lg _ hl scan_ex_blank rfl]
  rw [if_neg (by decide)]
  rw [blank_branch_no_return _ _ 0 (by rfl) (by decide) (by
    show F32.gt (F32.fin 0) (F32.sub (F32.fin 8) (F32.fin 6)) = false
    rw [sub_fin_int 8 6 2 (by norm_num) (by norm_num)]
    simp [F32.gt]
    norm_num)]

theorem refine_rounds_succ_undef {F : Type} (n : Nat) (e : ℚ) (aas a1 a2 : AprilASRSession F)
    (hj : aas_run_joiner aas = some a1)
    (hp : aas_process_logits a1 (F32.fin (if e - 1 > 0 then e - 1 else 0)) = some (a2, none)) :
    refine_rounds (n + 1) e aas = none := by
  unfold refine_rounds
  simp only [hj, hp]

/-- C2 (code at the failing input). In a fresh session of the 500-token model whose
joiner produced `[10, 0, 0, ..., 0]`, the round with `early_emit = 2` ends its scan
with `max_idx = 0` (blank wins, no token within 6 of it) and
`aas_process_logits` reaches the end of the function without executing a
`return`: it returns neither `false` nor `true`, and the refinement loop, which
tests the returned value, has no defined behaviour. -/
theorem process_logits_blank_no_return_value :
    biased_scan ex_logits_blank (F32.fin 2) =
      some { max_idx := 0, max_idx_non0 := 1, max_val := F32.fin 8,
             max_val_non0 := F32.fin 0 } ∧
    (aas_run_joiner (ex_session ex_logits_blank)).bind
      (fun aas => (aas_process_logits aas (F32.fin 2)).map Prod.snd) = some none ∧
    refine_loop (ex_session ex_logits_blank) = none := by
  obtain ⟨lg, hlg⟩ := ex_blank_round
  refine ⟨scan_ex_blank, ?_, ?_⟩
  · rw [ex_session_joiner, Option.some_bind, hlg]
    rfl
  · have harg : (if (3 : ℚ) - 1 > 0 then (3 : ℚ) - 1 else 0) = 2 := by norm_num
    exact refine_rounds_succ_undef 7 3 (ex_session ex_logits_blank) _ _
      (ex_session_joiner _) (by rw [harg]; exact hlg)

/-- C9 (code at the failing input). For the 501 logits `0, ..., 0, 9` of a model with
501 tokens the scan ends with `max_idx = 0` and `max_idx_non0 = 1`: entry 500, the
maximum, is never read. For the 5 logits `[1, 1, 1, 9, 1]` of a model with 5
tokens the scan reads outside the buffer. -/
theorem scan_reads_500_entries :
    ex_logits_501.length = 501 ∧ ex_logits_501[500]? = some (F32.fin 9) ∧
    biased_scan ex_logits_501 (F32.fin 0) =
      some { max_idx := 0, max_idx_non0 := 1, max_val := F32.fin 0,
             max_val_non0 := F32.fin 0 } ∧
    biased_scan (floats [1, 1, 1, 9, 1]) (F32.fin 0) = none := by
  refine ⟨?_, ?_, ?_, ?_⟩
  · simp only [ex_logits_501, floats, List.length_append, List.length_replicate,
      List.length_cons, List.length_nil, List.length_map]
  · rw [ex_logits_501, List.getElem?_append_right (by
      simp only [floats, List.length_append, List.length_replicate, List.length_cons,
        List.length_nil, List.length_map]
      omega)]
    simp only [floats, List.length_append, List.length_replicate, List.length_cons,
      List.length_nil, List.length_map]
    rfl
  · have hsub : F32.sub (F32.fin 0) (F32.fin 0) = F32.fin 0 := by
      rw [sub_fin_int 0 0 0 (by norm_num) (by norm_num)]
      norm_num
    have h2 : scan_after [F32.fin 0, F32.fin 0] 2 =
        some { max_idx := 0, max_idx_non0 := 1, max_val := F32.fin 0,
               max_val_non0 := F32.fin 0 } := by
      norm_num [scan_after, scan_step, scan_init_eq, F32.gt]
    have h500 := scan_after_pad [F32.fin 0, F32.fin 0] (F32.fin 0) _ 498 2 500 (by simp)
      (by norm_num) h2 (by simp [F32.gt]) (by simp [F32.gt])
    have hl0 : bias_blank ex_logits_501 (F32.fin 0) =
        some (([F32.sub (F32.fin 0) (F32.fin 0), F32.fin 0] ++
          List.replicate 498 (F32.fin 0)) ++ [F32.fin 9]) := rfl
    have hl : bias_blank ex_logits_501 (F32.fin 0) =
        some (([F32.fin 0, F32.fin 0] ++ List.replicate 498 (F32.fin 0)) ++ [F32.fin 9]) := by
      rw [hl0, hsub]
    rw [biased_scan, hl, Option.some_bind, scan_after_append_left _ _ _ (by
      simp only [List.length_append, List.length_replicate, List.length_cons, List.length_nil]
      omega)]
    exact h500
  · cases h : biased_scan (floats [1, 1, 1, 9, 1]) (F32.fin 0) with
    | none => rfl
    | some st =>
      simp only [biased_scan, bias_blank, floats, List.map, Option.some_bind] at h
      have := scan_after_some_le _ _ _ h
      simp only [List.length_cons, List.length_nil] at this
      omega

/-! ## The accepting branch -/

theorem array_write_eq_some {α : Type} (a b : List α) (i : Nat) (v : α)
    (h : array_write a i v = some b) : i < a.length ∧ b = a.set i v := by
  unfold array_write at h
  split_ifs at h with hi
  exact ⟨hi, (Option.some.inj h).symm⟩

theorem accept_branch_eval {F : Type} (aas : AprilASRSession F) (t : Int) (head : Nat) (c1 : Int)
    (tok : List Char)
    (h1 : ring_reset_check aas.model.params aas.active_token_head t = some head)
    (h2 : head < aas.active_tokens.length)
    (h3 : aas.context[1]? = some c1)
    (h4 : get_token aas.model.params t = some tok) :
    accept_branch aas t =
      some ({ aas with
        active_tokens := aas.active_tokens.set head t
        active_token_head := head + 1
        context := (aas.context.set 0 c1).set 1 t }, some true) := by
  have hlen : 1 < aas.context.length := (List.getElem?_eq_some_iff.mp h3).1
  unfold accept_branch
  simp only [bind, h1, Option.some_bind, array_write, h2, if_true, h3, h4,
    List.length_set, hlen, Nat.lt_of_succ_lt hlen]

theorem accept_branch_spec {F : Type} (aas aas1 : AprilASRSession F) (t : Int) (r : Option Bool)
    (h : accept_branch aas t = some (aas1, r)) :
    r = some true ∧
      ∃ head c1 tok,
        ring_reset_check aas.model.params aas.active_token_head t = some head ∧
        head < aas.active_tokens.length ∧
        aas.context[1]? = some c1 ∧
        get_token aas.model.params t = some tok ∧
        aas1 = { aas with
          active_tokens := aas.active_tokens.set head t
          active_token_head := head + 1
          context := (aas.context.set 0 c1).set 1 t } := by
  obtain ⟨hr, head, at1, c1, ctx0, ctx, h1, h2, h3, h4, h5, h6, h7⟩ :=
    accept_branch_inv aas aas1 t r h
  obtain ⟨h2a, h2b⟩ := array_write_eq_some _ _ _ _ h2
  obtain ⟨_, h4b⟩ := array_write_eq_some _ _ _ _ h4
  obtain ⟨_, h5b⟩ := array_write_eq_some _ _ _ _ h5
  obtain ⟨tok, htok⟩ := Option.isSome_iff_exists.mp h6
  subst h2b h4b h5b
  exact ⟨hr, head, c1, tok, h1, h2a, h3, htok, h7⟩

/-! ## The ring-reset check -/

theorem take_succ_set {α : Type} (l : List α) (n : Nat) (t : α) (h : n < l.length) :
    (l.set n t).take (n + 1) = l.take n ++ [t] := by
  rw [List.take_succ, List.getElem?_set_self h, List.set_take,
    List.set_eq_of_length_le (by simp)]
  rfl

theorem ring_reset_check_eq (params : ModelParameters) (n : Nat) (t : Int) (head : Nat)
    (h : ring_reset_check params n t = some head) :
    head = if 16 < n ∧ (get_token_char0 params t = some ' ' ∨ 30 < n) then 0 else n := by
  unfold ring_reset_check at h
  by_cases h16 : n > 16
  · rw [if_pos h16] at h
    cases hch : get_token_char0 params t with
    | none => simp [hch] at h
    | some ch =>
      simp only [hch] at h
      by_cases hc : ch = ' ' ∨ n > 30
      · rw [if_pos hc] at h
        have : 16 < n ∧ (some ch = some ' ' ∨ 30 < n) := by
          refine ⟨h16, ?_⟩
          rcases hc with hc | hc
          · exact Or.inl (by rw [hc])
          · exact Or.inr hc
        rw [if_pos this]
        exact (Option.some.inj h).symm
      · rw [if_neg hc] at h
        have : ¬ (16 < n ∧ (some ch = some ' ' ∨ 30 < n)) := by
          rintro ⟨_, hc1 | hc1⟩
          · exact hc (Or.inl (Option.some.inj hc1))
          · exact hc (Or.inr hc1)
        rw [if_neg this]
        exact (Option.some.inj h).symm
  · rw [if_neg h16] at h
    have : ¬ (16 < n ∧ (get_token_char0 params t = some ' ' ∨ 30 < n)) := fun hc => h16 hc.1
    rw [if_neg this]
    exact (Option.some.inj h).symm

theorem ring_reset_check_le (params : ModelParameters) (n : Nat) (t : Int) (head : Nat)
    (h : ring_reset_check params n t = some head) : head ≤ 30 ∧ head ≤ n := by
  have := ring_reset_check_eq params n t head h
  split_ifs at this with hc
  · omega
  · have : n ≤ 30 := by
      by_contra hn
      exact hc ⟨by omega, Or.inr (by omega)⟩
    omega

/-- C5. A round of `aas_process_logits` that accepts the token `t = max_idx` with
`n = active_token_head` tokens in the ring: `t` is not the blank, the ring-reset
check empties the ring exactly when `n > 16` and (the text of `t` begins with
`' '` or `n > 30`), and the ring afterwards is `[t]` in that case and the previous
ring followed by `t` otherwise. -/
theorem accept_ring_update {F : Type} (aas aas1 : AprilASRSession F) (e : F32) (sc : Scan)
    (hsc : biased_scan aas.logits e = some sc)
    (h : aas_process_logits aas e = some (aas1, some true)) :
    sc.max_idx ≠ 0 ∧
    ring_reset_check aas.model.params aas.active_token_head sc.max_idx =
      some (if 16 < aas.active_token_head ∧
              (get_token_char0 aas.model.params sc.max_idx = some ' ' ∨
                30 < aas.active_token_head)
            then 0 else aas.active_token_head) ∧
    ring aas1 =
      if 16 < aas.active_token_head ∧
          (get_token_char0 aas.model.params sc.max_idx = some ' ' ∨ 30 < aas.active_token_head)
      then [sc.max_idx] else ring aas ++ [sc.max_idx] := by
  have hne : sc.max_idx ≠ 0 := (process_logits_true_iff aas aas1 e _ sc h hsc).mp rfl
  obtain ⟨logits, sc1, hl, hs, _, hcase⟩ := process_logits_inv aas aas1 e _ h
  have hsceq : sc1 = sc := by
    simp only [biased_scan, hl, Option.some_bind] at hsc
    rw [hs] at hsc
    exact Option.some.inj hsc
  subst hsceq
  rcases hcase with ⟨_, hacc⟩ | ⟨h0, _, _⟩
  · obtain ⟨_, head, c1, tok, h1, h2, _, _, h5⟩ := accept_branch_spec _ _ _ _ hacc
    have hhead := ring_reset_check_eq _ _ _ _ h1
    simp only at h1 h2 hhead
    refine ⟨hne, ?_, ?_⟩
    · rw [h1, hhead]
    · subst h5
      simp only [ring]
      rw [take_succ_set _ _ _ h2]
      split_ifs at hhead ⊢ with hc
      · subst hhead
        rfl
      · subst hhead
        rfl
  · exact absurd h0 hne

/-! ## Sequences of decoder rounds -/

theorem process_logits_spec {F : Type} (aas aas1 : AprilASRSession F) (e : F32) (r : Option Bool)
    (h : aas_process_logits aas e = some (aas1, r)) :
    ∃ sc, biased_scan aas.logits e = some sc ∧
      aas1.model = aas.model ∧
      aas1.active_tokens.length = aas.active_tokens.length ∧
      aas1.context.length = aas.context.length ∧
      ((r = some true ∧ sc.max_idx ≠ 0 ∧
          ∃ head c1 tok,
            ring_reset_check aas.model.params aas.active_token_head sc.max_idx = some head ∧
            head < aas.active_tokens.length ∧
            aas.context[1]? = some c1 ∧
            get_token aas.model.params sc.max_idx = some tok ∧
            aas1.active_token_head = head + 1 ∧
            aas1.active_tokens = aas.active_tokens.set head sc.max_idx ∧
            aas1.context = (aas.context.set 0 c1).set 1 sc.max_idx) ∨
       (r ≠ some true ∧ sc.max_idx = 0 ∧ aas1.context = aas.context ∧
          aas1.active_token_head = aas.active_token_head ∧
          aas1.active_tokens = aas.active_tokens)) := by
  obtain ⟨logits, sc, hl, hs, _, hcase⟩ := process_logits_inv aas aas1 e r h
  refine ⟨sc, by simp only [biased_scan, hl, Option.some_bind, hs], ?_⟩
  rcases hcase with ⟨hne, hacc⟩ | ⟨h0, hr, h1⟩
  · obtain ⟨hr, head, c1, tok, h1, h2, h3, h4, h5⟩ := accept_branch_spec _ _ _ _ hacc
    subst h5
    refine ⟨rfl, by simp, by simp, Or.inl ⟨hr, hne, head, c1, tok, h1, h2, h3, h4, rfl, rfl, rfl⟩⟩
  · subst h1
    exact ⟨rfl, rfl, rfl, Or.inr ⟨hr, h0, rfl, rfl, rfl⟩⟩

theorem last_two_cons (x : Int) (l : List Int) (h : 2 ≤ l.length) :
    last_two (x :: l) = last_two l := by
  unfold last_two
  have : (x :: l).length - 2 = (l.length - 2) + 1 := by
    simp only [List.length_cons]
    omega
  rw [this, List.drop_succ_cons]

theorem run_rounds_context {F : Type} (rounds : List (TensorF × F32)) :
    ∀ (aas s : AprilASRSession F) (a b : Int) (acc : List Int), aas.context = [a, b] →
      run_rounds aas rounds = some (s, acc) → s.context = last_two ([a, b] ++ acc) := by
  induction rounds with
  | nil =>
    intro aas s a b acc hctx h
    simp only [run_rounds, Option.some.injEq, Prod.mk.injEq] at h
    rw [← h.1, ← h.2, hctx]
    rfl
  | cons rd rest ih =>
    intro aas s a b acc hctx h
    obtain ⟨logits, e⟩ := rd
    simp only [run_rounds, bind, Option.bind_eq_some] at h
    obtain ⟨sc, hsc, ⟨aas1, ret⟩, hround, ⟨aas2, acc1⟩, hrest, hfin⟩ := h
    simp only [Option.some.injEq, Prod.mk.injEq] at hfin
    obtain ⟨hs, hacc⟩ := hfin
    subst hs
    obtain ⟨sc1, hsc1, _, _, _, hcase⟩ := process_logits_spec _ _ _ _ hround
    have hsceq : sc1 = sc := by
      simp only at hsc1
      rw [hsc] at hsc1
      exact (Option.some.inj hsc1).symm
    subst hsceq
    rcases hcase with ⟨hr, _, head, c1, tok, _, _, hc1, _, _, _, hctx1⟩ | ⟨hr, _, hctx1, _, _⟩
    · simp only [hctx] at hc1 hctx1
      have hcb : c1 = b := by
        simp only [List.getElem?_cons_succ, List.getElem?_cons_zero, Option.some.injEq] at hc1
        exact hc1.symm
      subst hcb
      have hctx2 : aas1.context = [c1, sc1.max_idx] := by
        rw [hctx1]
        rfl
      rw [if_pos hr] at hacc
      rw [← hacc, ih aas1 aas2 c1 sc1.max_idx acc1 hctx2 hrest]
      exact (last_two_cons a _ (by simp)).symm
    · rw [if_neg hr] at hacc
      rw [← hacc]
      exact ih aas1 aas2 a b acc1 (by rw [hctx1]; exact hctx) hrest

theorem run_rounds_ring {F : Type} (rounds : List (TensorF × F32)) :
    ∀ (aas s : AprilASRSession F) (acc : List Int),
      aas.active_tokens.length = 64 → aas.active_token_head ≤ 31 →
      run_rounds aas rounds = some (s, acc) →
      s.active_tokens.length = 64 ∧ s.active_token_head ≤ 31 ∧ s.model = aas.model := by
  induction rounds with
  | nil =>
    intro aas s acc hlen hhead h
    simp only [run_rounds, Option.some.injEq, Prod.mk.injEq] at h
    rw [← h.1]
    exact ⟨hlen, hhead, rfl⟩
  | cons rd rest ih =>
    intro aas s acc hlen hhead h
    obtain ⟨logits, e⟩ := rd
    simp only [run_rounds, bind, Option.bind_eq_some] at h
    obtain ⟨sc, hsc, ⟨aas1, ret⟩, hround, ⟨aas2, acc1⟩, hrest, hfin⟩ := h
    simp only [Option.some.injEq, Prod.mk.injEq] at hfin
    obtain ⟨hs, _⟩ := hfin
    subst hs
    obtain ⟨sc1, _, hm, hl1, _, hcase⟩ := process_logits_spec _ _ _ _ hround
    simp only at hm hl1
    have hhead1 : aas1.active_token_head ≤ 31 := by
      rcases hcase with ⟨_, _, head, c1, tok, hrc, _, _, _, hh, _, _⟩ | ⟨_, _, _, hh, _⟩
      · have := (ring_reset_check_le _ _ _ _ hrc).1
        omega
      · rw [hh]
        exact hhead
    obtain ⟨r1, r2, r3⟩ := ih aas1 aas2 acc1 (by rw [hl1]; exact hlen) hhead1 hrest
    exact ⟨r1, r2, r3.trans hm⟩

/-! ## Context window, ring bound, early emission -/

theorem run_rounds_accepted_ne_zero {F : Type} (rounds : List (TensorF × F32)) :
    ∀ (aas s : AprilASRSession F) (acc : List Int),
      run_rounds aas rounds = some (s, acc) → ∀ t ∈ acc, t ≠ 0 := by
  induction rounds with
  | nil =>
    intro aas s acc h t ht
    simp only [run_rounds, Option.some.injEq, Prod.mk.injEq] at h
    rw [← h.2] at ht
    exact absurd ht (List.not_mem_nil t)
  | cons rd rest ih =>
    intro aas s acc h t ht
    obtain ⟨logits, e⟩ := rd
    simp only [run_rounds, bind, Option.bind_eq_some] at h
    obtain ⟨sc, hsc, ⟨aas1, ret⟩, hround, ⟨aas2, acc1⟩, hrest, hfin⟩ := h
    simp only [Option.some.injEq, Prod.mk.injEq] at hfin
    obtain ⟨_, hacc⟩ := hfin
    by_cases hr : ret = some true
    · rw [if_pos hr] at hacc
      rw [← hacc] at ht
      rcases List.mem_cons.mp ht with h1 | h1
      · rw [h1]
        exact (process_logits_true_iff _ _ _ _ sc hround hsc).mp hr
      · exact ih aas1 aas2 acc1 hrest t h1
    · rw [if_neg hr] at hacc
      rw [← hacc] at ht
      exact ih aas1 aas2 acc1 hrest t ht

theorem create_session_context {F : Type} (api : FBankApi F) (model : AprilASRModel)
    (hdim : SHAPE_PRODUCT2 model.context_dim = 2) :
    (aas_create_session api model).context = [0, 0] := by
  simp only [aas_create_session, alloc_tensor2i, hdim]
  rfl

/-- C3. Starting from a freshly created session of a model whose context shape has
2 entries, after any sequence of decoder rounds the context window has exactly 2
entries and equals the last two elements of `0, 0` followed by the token ids of
the accepting rounds, in order: `[0, 0]` after no accept, `[0, t]` after one,
the last two accepted ids after two or more. No accepted id is the blank, and a
round that does not accept leaves the context window unchanged. -/
theorem context_window_last_two {F : Type} (api : FBankApi F) (model : AprilASRModel)
    (hdim : SHAPE_PRODUCT2 model.context_dim = 2)
    (rounds : List (TensorF × F32)) (s : AprilASRSession F) (acc : List Int)
    (h : run_rounds (aas_create_session api model) rounds = some (s, acc)) :
    (aas_create_session api model).context = [0, 0] ∧
    s.context.length = 2 ∧
    s.context = last_two ([0, 0] ++ acc) ∧
    (acc = [] → s.context = [0, 0]) ∧
    (∀ t, acc = [t] → s.context = [0, t]) ∧
    (∀ pre t1 t2, acc = pre ++ [t1, t2] → s.context = [t1, t2]) ∧
    (∀ t ∈ acc, t ≠ 0) ∧
    (∀ (aas aas1 : AprilASRSession F) (logits : TensorF) (e : F32) (r : Option Bool),
      decoder_round aas logits e = some (aas1, r) → r ≠ some true →
      aas1.context = aas.context) := by
  have h0 := create_session_context api model hdim
  have hctx := run_rounds_context rounds _ s 0 0 acc h0 h
  refine ⟨h0, ?_, hctx, ?_, ?_, ?_, run_rounds_accepted_ne_zero rounds _ s acc h, ?_⟩
  · rw [hctx]
    simp only [last_two, List.length_drop, List.length_append, List.length_cons,
      List.length_nil]
    omega
  · intro hacc
    rw [hctx, hacc]
    rfl
  · intro t hacc
    rw [hctx, hacc]
    rfl
  · intro pre t1 t2 hacc
    rw [hctx, hacc, ← List.append_assoc]
    unfold last_two
    have : (([0, 0] ++ pre) ++ [t1, t2]).length - 2 = ([0, 0] ++ pre).length := by
      simp only [List.length_append, List.length_cons, List.length_nil]
      omega
    rw [this, List.drop_left]
  · intro aas aas1 logits e r hround hr
    obtain ⟨sc, _, _, _, _, hcase⟩ := process_logits_spec _ _ _ _ hround
    rcases hcase with ⟨hr1, _⟩ | ⟨_, _, hc, _, _⟩
    · exact absurd hr1 hr
    · exact hc

/-- C4. In every session reached from `aas_create_session` by decoder rounds, the
array `active_tokens` has its 64 entries and `active_token_head` is at most 31;
the value of `active_token_head` right after the ring-reset check of an accepting
round is at most 30, so the append writes below the capacity 64, and the head
after the append is at most 31, hence at most 64. -/
theorem ring_head_bounded {F : Type} (api : FBankApi F) (model : AprilASRModel)
    (rounds : List (TensorF × F32)) (s : AprilASRSession F) (acc : List Int)
    (h : run_rounds (aas_create_session api model) rounds = some (s, acc)) :
    s.active_tokens.length = 64 ∧
    s.active_token_head ≤ 31 ∧
    s.active_token_head ≤ 64 ∧
    (∀ (max_idx : Int) (head : Nat),
      ring_reset_check s.model.params s.active_token_head max_idx = some head →
      head ≤ 30 ∧ head < s.active_tokens.length ∧
      array_write s.active_tokens head max_idx = some (s.active_tokens.set head max_idx)) ∧
    (∀ (logits : TensorF) (e : F32) (s1 : AprilASRSession F) (r : Option Bool),
      decoder_round s logits e = some (s1, r) →
      s1.active_tokens.length = 64 ∧ s1.active_token_head ≤ 31) := by
  obtain ⟨hlen, hhead, _⟩ := run_rounds_ring rounds (aas_create_session api model) s acc
    (by simp [aas_create_session]) (by simp [aas_create_session]) h
  refine ⟨hlen, hhead, by omega, ?_, ?_⟩
  · intro max_idx head hrc
    have h30 := (ring_reset_check_le _ _ _ _ hrc).1
    have hlt : head < s.active_tokens.length := by omega
    exact ⟨h30, hlt, by simp only [array_write, hlt, if_true]⟩
  · intro logits e s1 r hround
    have hstep : run_rounds s [(logits, e)] =
        some (s1, if r = some true then
          [((biased_scan logits e).getD scan_init).max_idx] else []) := by
      obtain ⟨sc, hsc, _⟩ := process_logits_spec _ _ _ _ hround
      simp only at hsc
      simp only [run_rounds, bind, hsc, Option.some_bind, hround, Option.getD_some]
    obtain ⟨r1, r2, _⟩ := run_rounds_ring [(logits, e)] s s1 _ hlen hhead hstep
    exact ⟨r1, r2⟩

/-- C7. Early-emission monotonicity, in binary32 arithmetic: when the round with
`early_emit = e1` accepts a token (returns `true`), the round with any float
`e2 ≥ e1` on the same session and logits (NaN and infinite entries included) also
accepts, the scan ends with the same non-blank `max_idx`, and the same token id
is appended to the context window and to the ring. -/
theorem process_logits_early_emit_mono {F : Type} (aas aas1 : AprilASRSession F) (e1 e2 : F32)
    (he : F32.le e1 e2 = true) (h : aas_process_logits aas e1 = some (aas1, some true)) :
    ∃ (aas2 : AprilASRSession F) (sc : Scan),
      aas_process_logits aas e2 = some (aas2, some true) ∧
      biased_scan aas.logits e1 = some sc ∧ biased_scan aas.logits e2 = some sc ∧
      sc.max_idx ≠ 0 ∧
      aas1.context[1]? = some sc.max_idx ∧ aas2.context[1]? = some sc.max_idx ∧
      aas2.context = aas1.context ∧
      aas2.active_tokens = aas1.active_tokens ∧
      aas2.active_token_head = aas1.active_token_head := by
  obtain ⟨logits1, sc, hl1, hs1, hread, hcase⟩ := process_logits_inv aas aas1 e1 _ h
  have hsc1 : biased_scan aas.logits e1 = some sc := by
    simp only [biased_scan, hl1, Option.some_bind, hs1]
  rcases hcase with ⟨hne, hacc⟩ | ⟨_, hr, _⟩
  · have hsc2 := biased_scan_mono aas.logits e1 e2 sc he hsc1 hne
    obtain ⟨logits2, hl2⟩ : ∃ l, bias_blank aas.logits e2 = some l := by
      cases hb : bias_blank aas.logits e2 with
      | none => simp [biased_scan, hb] at hsc2
      | some l => exact ⟨l, rfl⟩
    obtain ⟨_, head, c1, tok, h1, h2, h3, h4, h5⟩ := accept_branch_spec _ _ _ _ hacc
    have hev := process_logits_eval aas e2 logits2 sc hl2 hsc2 hread
    rw [if_pos hne, accept_branch_eval { aas with logits := logits2 } sc.max_idx head c1 tok
      h1 h2 h3 h4] at hev
    have hlen : 1 < aas.context.length := (List.getElem?_eq_some_iff.mp h3).1
    refine ⟨_, sc, hev, hsc1, hsc2, hne, ?_, ?_, ?_, ?_, ?_⟩
    · subst h5
      simp only
      rw [List.getElem?_set_self (by simpa using hlen)]
    · simp only
      rw [List.getElem?_set_self (by simpa using hlen)]
    · subst h5
      rfl
    · subst h5
      rfl
    · subst h5
      rfl
  · exact absurd rfl hr

/-! ## Recurrent-state banks -/

theorem run_encoder_spec {F : Type} (aas aas1 : AprilASRSession F)
    (h : aas_run_encoder aas = some aas1) :
    ∃ eout nh nc,
      aas.model.encoder aas.x (aas.h (encoder_read_index (!aas.hc_use_0)))
        (aas.c (encoder_read_index (!aas.hc_use_0))) = some (eout, nh, nc) ∧
      aas1.hc_use_0 = (!aas.hc_use_0) ∧
      aas1.h (encoder_write_index (!aas.hc_use_0)) = nh ∧
      aas1.c (encoder_write_index (!aas.hc_use_0)) = nc ∧
      aas1.h (encoder_read_index (!aas.hc_use_0)) = aas.h (encoder_read_index (!aas.hc_use_0)) ∧
      aas1.c (encoder_read_index (!aas.hc_use_0)) = aas.c (encoder_read_index (!aas.hc_use_0)) ∧
      aas1.model = aas.model ∧ aas1.eout = eout := by
  unfold aas_run_encoder at h
  dsimp only at h
  split at h
  · exact absurd h (by simp)
  · rename_i eout nh nc heq
    simp only [Option.some.injEq] at h
    subst h
    refine ⟨eout, nh, nc, heq, rfl, ?_, ?_, ?_, ?_, rfl, rfl⟩
    · simp
    · simp
    · cases aas.hc_use_0 <;> simp [encoder_read_index, encoder_write_index, Function.update]
    · cases aas.hc_use_0 <;> simp [encoder_read_index, encoder_write_index, Function.update]

theorem encoder_read_ne_write (b : Bool) : encoder_read_index b ≠ encoder_write_index b := by
  cases b <;> simp [encoder_read_index, encoder_write_index]

theorem encoder_read_not (b : Bool) : encoder_read_index (!b) = encoder_write_index b := by
  cases b <;> simp [encoder_read_index, encoder_write_index]

theorem run_encoders_chain {F : Type} (segments : List TensorF) :
    ∀ (aas s : AprilASRSession F) (calls : List EncoderCall),
      run_encoders aas segments = some (s, calls) →
      calls.length = segments.length ∧
      (∀ c : EncoderCall, calls[0]? = some c →
        c.read_index = encoder_read_index (!aas.hc_use_0) ∧
        c.h_in = aas.h c.read_index ∧ c.c_in = aas.c c.read_index) ∧
      (∀ (k : Nat) (c : EncoderCall), calls[k]? = some c → c.read_index ≠ c.write_index) ∧
      (∀ (k : Nat) (c : EncoderCall) (x : TensorF), calls[k]? = some c → segments[k]? = some x →
        ∃ eout, aas.model.encoder x c.h_in c.c_in = some (eout, c.h_out, c.c_out)) ∧
      (∀ (k : Nat) (c c1 : EncoderCall), calls[k]? = some c → calls[k + 1]? = some c1 →
        c1.read_index = c.write_index ∧ c1.h_in = c.h_out ∧ c1.c_in = c.c_out) := by
  induction segments with
  | nil =>
    intro aas s calls h
    simp only [run_encoders, Option.some.injEq, Prod.mk.injEq] at h
    rw [← h.2]
    simp
  | cons x rest ih =>
    intro aas s calls h
    simp only [run_encoders, bind, Option.bind_eq_some] at h
    obtain ⟨aas1, henc, ⟨aas2, calls1⟩, hrest, hfin⟩ := h
    simp only [Option.some.injEq, Prod.mk.injEq] at hfin
    obtain ⟨_, hcalls⟩ := hfin
    obtain ⟨eout, nh, nc, hrun, hflag, hwh, hwc, _, _, hmodel, _⟩ := run_encoder_spec _ _ henc
    simp only at hrun hflag hwh hwc hmodel
    obtain ⟨ilen, ihead, iself, idata, ichain⟩ := ih aas1 aas2 calls1 hrest
    subst hcalls
    refine ⟨by simp [ilen], ?_, ?_, ?_, ?_⟩
    · intro c hc
      simp only [List.getElem?_cons_zero, Option.some.injEq] at hc
      subst hc
      exact ⟨rfl, rfl, rfl⟩
    · intro k c hc
      cases k with
      | zero =>
        simp only [List.getElem?_cons_zero, Option.some.injEq] at hc
        subst hc
        exact encoder_read_ne_write _
      | succ k =>
        simp only [List.getElem?_cons_succ] at hc
        exact iself k c hc
    · intro k c y hc hy
      cases k with
      | zero =>
        simp only [List.getElem?_cons_zero, Option.some.injEq] at hc hy
        subst hc hy
        exact ⟨eout, by rw [hwh, hwc]; exact hrun⟩
      | succ k =>
        simp only [List.getElem?_cons_succ] at hc hy
        rw [← hmodel]
        exact idata k c y hc hy
    · intro k c c1 hc hc1
      cases k with
      | zero =>
        simp only [List.getElem?_cons_zero, Option.some.injEq] at hc
        simp only [List.getElem?_cons_succ] at hc1
        obtain ⟨hr, hh, hcc⟩ := ihead c1 hc1
        subst hc
        simp only
        rw [hflag, encoder_read_not] at hr
        rw [hh, hcc, hr]
        exact ⟨rfl, rfl, rfl⟩
      | succ k =>
        simp only [List.getElem?_cons_succ] at hc hc1
        exact ichain k c c1 hc hc1

/-- C6. In every sequence of `aas_run_encoder` invocations on a session, each
invocation reads the recurrent state from one bank and writes it to the other
(the indices differ), invocation `k + 1` reads the bank invocation `k` wrote and
finds there the state the engine returned to invocation `k`, and invocation
`k + 2` does not read the bank invocation `k` wrote. -/
theorem run_encoders_double_buffer {F : Type} (aas s : AprilASRSession F)
    (segments : List TensorF) (calls : List EncoderCall)
    (h : run_encoders aas segments = some (s, calls)) :
    calls.length = segments.length ∧
    (∀ (k : Nat) (c : EncoderCall), calls[k]? = some c → c.read_index ≠ c.write_index) ∧
    (∀ (k : Nat) (c : EncoderCall) (x : TensorF), calls[k]? = some c → segments[k]? = some x →
      ∃ eout, aas.model.encoder x c.h_in c.c_in = some (eout, c.h_out, c.c_out)) ∧
    (∀ (k : Nat) (c c1 : EncoderCall), calls[k]? = some c → calls[k + 1]? = some c1 →
      c1.read_index = c.write_index ∧ c1.h_in = c.h_out ∧ c1.c_in = c.c_out) ∧
    (∀ (k : Nat) (c c2 : EncoderCall), calls[k]? = some c → calls[k + 2]? = some c2 →
      c2.read_index ≠ c.write_index) := by
  obtain ⟨hlen, _, hself, hdata, hchain⟩ := run_encoders_chain segments aas s calls h
  refine ⟨hlen, hself, hdata, hchain, ?_⟩
  intro k c c2 hc hc2
  have hk1 : k + 1 < calls.length := by
    have := (List.getElem?_eq_some_iff.mp hc2).1
    omega
  obtain ⟨c1, hc1⟩ : ∃ c1, calls[k + 1]? = some c1 := ⟨_, List.getElem?_eq_getElem hk1⟩
  obtain ⟨h01, _, _⟩ := hchain k c c1 hc hc1
  obtain ⟨h12, _, _⟩ := hchain (k + 1) c1 c2 hc1 hc2
  have hne := hself (k + 1) c1 hc1
  rw [h12, ← h01]
  exact fun heq => hne heq.symm

/-! ## The refinement loop -/

theorem refine_rounds_succ_inv {F : Type} (n : Nat) (e : ℚ) (aas s : AprilASRSession F)
    (tr : List Round) (h : refine_rounds (n + 1) e aas = some (s, tr)) :
    ∃ (aas1 aas2 : AprilASRSession F) (r : Bool),
      aas_run_joiner aas = some aas1 ∧
      aas_process_logits aas1 (F32.fin (if e - 1 > 0 then e - 1 else 0)) = some (aas2, some r) ∧
      ((r = false ∧ s = aas2 ∧
          tr = [{ early_emit := if e - 1 > 0 then e - 1 else 0, emitted := false }]) ∨
       (r = true ∧ ∃ rest, refine_rounds n (e - 1) aas2 = some (s, rest) ∧
          tr = { early_emit := if e - 1 > 0 then e - 1 else 0, emitted := true } :: rest)) := by
  unfold refine_rounds at h
  dsimp only at h
  split at h
  · exact absurd h (by simp)
  · rename_i aas1 hj
    split at h
    · exact absurd h (by simp)
    · exact absurd h (by simp)
    · rename_i aas2 r hp
      refine ⟨aas1, aas2, r, hj, hp, ?_⟩
      cases r with
      | false =>
        simp only [if_true, Option.some.injEq, Prod.mk.injEq] at h
        exact Or.inl ⟨rfl, h.1.symm, h.2.symm⟩
      | true =>
        simp only [Bool.true_eq_false, if_false] at h
        split at h
        · exact absurd h (by simp)
        · rename_i s1 rest hrest
          simp only [Option.some.injEq, Prod.mk.injEq] at h
          exact Or.inr ⟨rfl, rest, by rw [hrest, h.1], h.2.symm⟩

theorem refine_rounds_spec {F : Type} (n : Nat) :
    ∀ (e : ℚ) (aas s : AprilASRSession F) (tr : List Round),
      refine_rounds n e aas = some (s, tr) →
      tr.length ≤ n ∧ (0 < n → 0 < tr.length) ∧
      (∀ (k : Nat) (r : Round), tr[k]? = some r → r.early_emit = max 0 (e - (k + 1))) ∧
      (∀ (k : Nat) (r : Round), tr[k]? = some r → k + 1 < tr.length → r.emitted = true) ∧
      (∀ r : Round, tr[tr.length - 1]? = some r → tr.length < n → r.emitted = false) := by
  induction n with
  | zero =>
    intro e aas s tr h
    simp only [refine_rounds, Option.some.injEq, Prod.mk.injEq] at h
    rw [← h.2]
    simp
  | succ n ih =>
    intro e aas s tr h
    obtain ⟨aas1, aas2, r, _, _, hcase⟩ := refine_rounds_succ_inv n e aas s tr h
    have harg : (if e - 1 > 0 then e - 1 else 0) = max 0 (e - 1) := by
      split_ifs with hpos
      · exact (max_eq_right (le_of_lt hpos)).symm
      · exact (max_eq_left (not_lt.mp hpos)).symm
    rcases hcase with ⟨_, _, htr⟩ | ⟨_, rest, hrest, htr⟩
    · subst htr
      refine ⟨by simp, by simp, ?_, ?_, ?_⟩
      · intro k r hk
        cases k with
        | zero =>
          simp only [List.getElem?_cons_zero, Option.some.injEq] at hk
          rw [← hk]
          simp only [harg]
          norm_num
        | succ k => simp at hk
      · intro k r _ hlt
        simp at hlt
      · intro r hr _
        have hr0 : ([{ early_emit := if e - 1 > 0 then e - 1 else 0, emitted := false }] :
            List Round)[0]? = some r := hr
        simp only [List.getElem?_cons_zero, Option.some.injEq] at hr0
        rw [← hr0]
    · obtain ⟨il, ipos, iarg, iemit, ilast⟩ := ih (e - 1) aas2 s rest hrest
      subst htr
      refine ⟨by simp only [List.length_cons]; omega, by simp, ?_, ?_, ?_⟩
      · intro k r hk
        cases k with
        | zero =>
          simp only [List.getElem?_cons_zero, Option.some.injEq] at hk
          rw [← hk]
          simp only [harg]
          norm_num
        | succ k =>
          simp only [List.getElem?_cons_succ] at hk
          rw [iarg k r hk]
          push_cast
          ring_nf
      · intro k r hk hlt
        cases k with
        | zero =>
          simp only [List.getElem?_cons_zero, Option.some.injEq] at hk
          rw [← hk]
        | succ k =>
          simp only [List.getElem?_cons_succ] at hk
          simp only [List.length_cons] at hlt
          exact iemit k r hk (by omega)
      · intro r hr hlt
        simp only [List.length_cons] at hr hlt
        have hn : 0 < n := by omega
        have hpos := ipos hn
        have : rest.length + 1 - 1 = (rest.length - 1) + 1 := by omega
        rw [this, List.getElem?_cons_succ] at hr
        exact ilast r hr (by omega)

/-! ## Rounds over the token table `ex_params` -/

theorem ex_tokens_length : ex_tokens.length = 1000 := by
  simp only [ex_tokens, List.length_append, List.length_flatten, List.map_replicate,
    List.sum_replicate, List.length_cons, List.length_nil, smul_eq_mul]

theorem get_token_ex (t : Int) (h0 : 0 ≤ t) (h1 : t < 500) :
    get_token ex_params t = some (ex_tokens.drop (2 * t.toNat)) := by
  obtain ⟨i, rfl⟩ := Int.eq_ofNat_of_zero_le h0
  have hi : i < 500 := by exact_mod_cast h1
  have hidx : ((i : Int) % (2 ^ 64 : Int)).toNat = i := by
    have : ((i : Int) % (2 ^ 64 : Int)) = i := Int.emod_eq_of_lt (by omega) (by omega)
    rw [this]
    rfl
  unfold get_token
  simp only [hidx, ex_params, ex_tokens_length, Int.toNat_ofNat]
  have hoff : 2 * i % 2 ^ 64 = 2 * i := Nat.mod_eq_of_lt (by omega)
  rw [hoff, if_pos (by omega)]

theorem ring_readable_iff (params : ModelParameters) (a : List Int) (head : Nat) :
    ring_readable params a head = true ↔
      ∀ m, m < head → ∃ t tok, a[m]? = some t ∧ get_token params t = some tok := by
  unfold ring_readable
  rw [List.all_eq_true]
  constructor
  · intro h m hm
    have := h m (List.mem_range.mpr hm)
    cases ha : a[m]? with
    | none => simp [ha] at this
    | some t =>
      simp only [ha] at this
      obtain ⟨tok, htok⟩ := Option.isSome_iff_exists.mp this
      exact ⟨t, tok, rfl, htok⟩
  · intro h m hm
    obtain ⟨t, tok, ha, htok⟩ := h m (List.mem_range.mp hm)
    simp [ha, htok]

theorem ring_readable_push (params : ModelParameters) (a : List Int) (head : Nat) (t : Int)
    (tok : List Char) (h : ring_readable params a head = true) (hlt : head < a.length)
    (htok : get_token params t = some tok) :
    ring_readable params (a.set head t) (head + 1) = true := by
  rw [ring_readable_iff] at h ⊢
  intro m hm
  rcases Nat.lt_succ_iff_lt_or_eq.mp hm with hlt1 | heq
  · obtain ⟨t1, tok1, ha, ht1⟩ := h m hlt1
    exact ⟨t1, tok1, by rw [List.getElem?_set_ne (by omega)]; exact ha, ht1⟩
  · subst heq
    exact ⟨t, tok, List.getElem?_set_self hlt, htok⟩

theorem ex_accept {F : Type} (aas : AprilASRSession F) (logits : TensorF) (e : F32) (sc : Scan)
    (hready : ExReady aas) (hhead : aas.active_token_head ≤ 16)
    (hsc : biased_scan logits e = some sc) (hne : sc.max_idx ≠ 0)
    (h0 : 0 ≤ sc.max_idx) (h1 : sc.max_idx < 500) :
    ∃ aas1 : AprilASRSession F,
      decoder_round aas logits e = some (aas1, some true) ∧ ExReady aas1 ∧
      aas1.model = aas.model ∧ aas1.eout = aas.eout ∧
      aas1.active_token_head = aas.active_token_head + 1 ∧
      aas1.context = [aas.context.getD 1 0, sc.max_idx] := by
  obtain ⟨hp, hctx, hlen, hread⟩ := hready
  obtain ⟨lg, hl⟩ : ∃ l, bias_blank logits e = some l := by
    cases hb : bias_blank logits e with
    | none => simp [biased_scan, hb] at hsc
    | some l => exact ⟨l, rfl⟩
  have htok := get_token_ex sc.max_idx h0 h1
  obtain ⟨a, b, hab⟩ : ∃ a b, aas.context = [a, b] := by
    match hc : aas.context, hctx with
    | [a, b], _ => exact ⟨a, b, rfl⟩
  have hev := process_logits_eval { aas with logits := logits } e lg sc hl hsc
    (by show ring_readable aas.model.params _ _ = true; rw [hp]; exact hread)
  rw [if_pos hne, accept_branch_eval _ sc.max_idx aas.active_token_head b _
    (by show ring_reset_check _ aas.active_token_head _ = _
        simp only [ring_reset_check, if_neg (not_lt.mpr hhead)])
    (by show aas.active_token_head < aas.active_tokens.length; omega)
    (by show aas.context[1]? = some b; rw [hab]; rfl)
    (by show get_token aas.model.params _ = _; rw [hp]; exact htok)] at hev
  refine ⟨_, hev, ⟨hp, ?_, ?_, ?_⟩, rfl, rfl, rfl, ?_⟩
  · simp [hctx]
  · simp [hlen]
  · exact ring_readable_push ex_params aas.active_tokens aas.active_token_head _ _ hread
      (by omega) htok
  · simp only [hab]
    rfl

/-! ## Concrete rounds -/

theorem ex_blank {F : Type} (aas : AprilASRSession F) (logits : TensorF) (e : F32) (sc : Scan)
    (hready : ExReady aas) (hhead : aas.active_token_head ≤ 16)
    (hsc : biased_scan logits e = some sc) (hz : sc.max_idx = 0)
    (h0 : 0 ≤ sc.max_idx_non0) (h1 : sc.max_idx_non0 < 500) :
    ∃ (aas1 : AprilASRSession F) (r : Option Bool),
      decoder_round aas logits e = some (aas1, r) ∧
      r = (if aas.context.getD 1 0 ≠ sc.max_idx_non0 ∧ F32.gt sc.max_val_non0 (F32.sub sc.max_val (F32.fin 6)) = true
            then some false else none) ∧
      ExReady aas1 ∧ aas1.model = aas.model ∧ aas1.eout = aas.eout ∧
      aas1.active_token_head = aas.active_token_head ∧ aas1.context = aas.context := by
  obtain ⟨hp, hctx, hlen, hread⟩ := hready
  obtain ⟨lg, hl⟩ : ∃ l, bias_blank logits e = some l := by
    cases hb : bias_blank logits e with
    | none => simp [biased_scan, hb] at hsc
    | some l => exact ⟨l, rfl⟩
  have htok := get_token_ex sc.max_idx_non0 h0 h1
  obtain ⟨a, b, hab⟩ : ∃ a b, aas.context = [a, b] := by
    match hc : aas.context, hctx with
    | [a, b], _ => exact ⟨a, b, rfl⟩
  have hev := process_logits_eval { aas with logits := logits } e lg sc hl hsc
    (by show ring_readable aas.model.params _ _ = true; rw [hp]; exact hread)
  rw [if_neg (by simp [hz])] at hev
  have hb1 : aas.context.getD 1 0 = b := by rw [hab]; rfl
  have hc1 : ({ aas with logits := lg } : AprilASRSession F).context[1]? = some b := by
    show aas.context[1]? = some b
    rw [hab]
    rfl
  rw [hb1]
  by_cases hcond : b ≠ sc.max_idx_non0 ∧
      F32.gt sc.max_val_non0 (F32.sub sc.max_val (F32.fin 6)) = true
  · rw [blank_branch_peek _ sc b _ hz hc1 hcond.1 hcond.2 hhead
      (by show get_token aas.model.params _ = _; rw [hp]; exact htok)] at hev
    exact ⟨_, _, hev, by rw [if_pos hcond], ⟨hp, hctx, hlen, hread⟩, rfl, rfl, rfl, rfl⟩
  · have hnr : blank_branch ({ aas with logits := lg } : AprilASRSession F) sc =
        some ({ aas with logits := lg }, none) := by
      by_cases hne : b ≠ sc.max_idx_non0
      · exact blank_branch_no_return _ sc b hc1 hne
          (by
            cases hg : F32.gt sc.max_val_non0 (F32.sub sc.max_val (F32.fin 6)) with
            | false => rfl
            | true => exact absurd ⟨hne, hg⟩ hcond)
      · unfold blank_branch
        simp only [hz, hc1, hne, if_true, if_false]
    rw [hnr] at hev
    exact ⟨_, _, hev, by rw [if_neg hcond], ⟨hp, hctx, hlen, hread⟩, rfl, rfl, rfl, rfl⟩

theorem ex_session_ready (l : TensorF) : ExReady (ex_session l) :=
  ⟨rfl, rfl, List.length_replicate 64 0, rfl⟩

theorem run_rounds_cons {F : Type} (aas aas1 s : AprilASRSession F) (logits : TensorF) (e : F32)
    (sc : Scan) (r : Option Bool) (rest : List (TensorF × F32)) (acc : List Int)
    (hsc : biased_scan logits e = some sc)
    (hround : decoder_round aas logits e = some (aas1, r))
    (hrest : run_rounds aas1 rest = some (s, acc)) :
    run_rounds aas ((logits, e) :: rest) =
      some (s, if r = some true then sc.max_idx :: acc else acc) := by
  simp only [run_rounds, bind, hsc, Option.some_bind, hround, hrest]

theorem ex_rounds_eval :
    ∃ s : AprilASRSession (List (List ℚ)),
      run_rounds (aas_create_session ex_api (ex_model [])) ex_rounds = some (s, [3, 4]) ∧
      s.context = [3, 4] := by
  obtain ⟨a1, r1, hr1, hv1, hy1, _, _, hh1, hc1⟩ :=
    ex_blank (ex_session []) ex_logits_blank (F32.fin 2) _ (ex_session_ready [])
      (by decide) scan_ex_blank rfl (by decide) (by decide)
  have hh1a : a1.active_token_head = 0 := hh1
  obtain ⟨a2, hr2, hy2, _, _, hh2, hc2⟩ :=
    ex_accept a1 ex_logits_emit (F32.fin 2) _ hy1 (by omega) (scan_ex_emit 2 (by norm_num))
      (by decide) (by decide) (by decide)
  obtain ⟨a3, r3, hr3, hv3, hy3, _, _, hh3, hc3⟩ :=
    ex_blank a2 ex_logits_peek (F32.fin 1) _ hy2 (by omega) scan_ex_peek_1 rfl (by decide) (by decide)
  obtain ⟨a4, hr4, hy4, _, _, hh4, hc4⟩ :=
    ex_accept a3 ex_logits_space (F32.fin 0) _ hy3 (by omega) (scan_ex_space 0 (le_refl _))
      (by decide) (by decide) (by decide)
  have hc1a : a1.context = [0, 0] := hc1
  have hc2a : a2.context = [0, 3] := by rw [hc2, hc1a]; rfl
  have hc3a : a3.context = [0, 3] := by rw [hc3, hc2a]
  have hc4a : a4.context = [3, 4] := by rw [hc4, hc3a]; rfl
  have hv1a : r1 ≠ some true := by
    rw [hv1]
    split_ifs <;> simp
  have hv3a : r3 ≠ some true := by
    rw [hv3]
    split_ifs <;> simp
  refine ⟨a4, ?_, hc4a⟩
  have e4 := run_rounds_cons a3 a4 a4 ex_logits_space (F32.fin 0) _ _ [] []
    (scan_ex_space 0 (le_refl _)) hr4 rfl
  have e3 := run_rounds_cons a2 a3 a4 ex_logits_peek (F32.fin 1) _ _ _ _ scan_ex_peek_1 hr3 e4
  have e2 := run_rounds_cons a1 a2 a4 ex_logits_emit (F32.fin 2) _ _ _ _
    (scan_ex_emit 2 (by norm_num)) hr2 e3
  have e1 := run_rounds_cons (ex_session []) a1 a4 ex_logits_blank (F32.fin 2) _ _ _ _
    scan_ex_blank hr1 e2
  simp only [if_neg hv1a, if_neg hv3a, if_true] at e1
  exact e1

/-! ## Concrete refinement loops -/

theorem refine_rounds_succ_emit {F : Type} (n : Nat) (e : ℚ) (aas a1 a2 s : AprilASRSession F)
    (rest : List Round) (hj : aas_run_joiner aas = some a1)
    (hp : aas_process_logits a1 (F32.fin (if e - 1 > 0 then e - 1 else 0)) = some (a2, some true))
    (hr : refine_rounds n (e - 1) a2 = some (s, rest)) :
    refine_rounds (n + 1) e aas =
      some (s, { early_emit := if e - 1 > 0 then e - 1 else 0, emitted := true } :: rest) := by
  unfold refine_rounds
  simp only [hj, hp, hr, Bool.true_eq_false, if_false]

theorem refine_rounds_succ_stop {F : Type} (n : Nat) (e : ℚ) (aas a1 a2 : AprilASRSession F)
    (hj : aas_run_joiner aas = some a1)
    (hp : aas_process_logits a1 (F32.fin (if e - 1 > 0 then e - 1 else 0)) = some (a2, some false)) :
    refine_rounds (n + 1) e aas =
      some (a2, [{ early_emit := if e - 1 > 0 then e - 1 else 0, emitted := false }]) := by
  unfold refine_rounds
  simp only [hj, hp, if_true]

theorem ex_run_joiner {F : Type} (aas : AprilASRSession F) (l : TensorF)
    (hm : aas.model = ex_model l) : aas_run_joiner aas = some { aas with logits := l } := by
  unfold aas_run_joiner
  rw [hm]
  rfl

theorem refine_emit_all {F : Type} (n : Nat) :
    ∀ (e : ℚ) (aas : AprilASRSession F), aas.model = ex_model ex_logits_emit → ExReady aas →
      aas.active_token_head + n ≤ 17 →
      ∃ (s : AprilASRSession F) (tr : List Round),
        refine_rounds n e aas = some (s, tr) ∧ tr.length = n ∧ ∀ r ∈ tr, r.emitted = true := by
  induction n with
  | zero =>
    intro e aas _ _ _
    exact ⟨aas, [], rfl, rfl, fun r hr => absurd hr (List.not_mem_nil r)⟩
  | succ n ih =>
    intro e aas hm hready hhead
    have harg : (0 : ℚ) ≤ (if e - 1 > 0 then e - 1 else 0) := by
      split_ifs with hpos
      · exact le_of_lt hpos
      · exact le_refl _
    obtain ⟨a2, hr2, hy2, hm2, _, hh2, _⟩ :=
      ex_accept aas ex_logits_emit _ _ hready (by omega) (scan_ex_emit _ harg)
        (by decide) (by decide) (by decide)
    obtain ⟨s, rest, hrest, hlen, hall⟩ := ih (e - 1) a2 (hm2.trans hm) hy2 (by omega)
    refine ⟨s, _, refine_rounds_succ_emit n e aas _ a2 s rest (ex_run_joiner aas _ hm) hr2 hrest,
      by simp [hlen], ?_⟩
    intro r hr
    rcases List.mem_cons.mp hr with h1 | h1
    · rw [h1]
    · exact hall r h1

theorem ex_refine_emit :
    ∃ (s : AprilASRSession (List (List ℚ))) (tr : List Round),
      refine_loop (ex_session ex_logits_emit) = some (s, tr) ∧
      tr.map Round.emitted = [true, true, true, true, true, true, true, true] := by
  obtain ⟨s, tr, h, hlen, hall⟩ :=
    refine_emit_all 8 3 (ex_session ex_logits_emit) rfl (ex_session_ready _) (by decide)
  refine ⟨s, tr, h, ?_⟩
  have : tr.map Round.emitted = List.replicate 8 true := by
    rw [List.eq_replicate_iff]
    refine ⟨by simp [hlen], ?_⟩
    intro b hb
    obtain ⟨r, hr, rfl⟩ := List.mem_map.mp hb
    exact hall r hr
  rw [this]
  rfl

theorem ex_refine_peek :
    ∃ (s : AprilASRSession (List (List ℚ))) (tr : List Round),
      refine_loop (ex_session ex_logits_peek) = some (s, tr) ∧
      tr.map Round.emitted = [false] := by
  obtain ⟨a1, r1, hr1, hv1, _⟩ :=
    ex_blank (ex_session ex_logits_peek) ex_logits_peek (F32.fin 2) _ (ex_session_ready _)
      (by decide) scan_ex_peek_2 rfl (by decide) (by decide)
  have hv : r1 = some false := by
    rw [hv1, if_pos]
    refine ⟨?_, ?_⟩
    · show (0 : Int) ≠ 1
      decide
    · show F32.gt (F32.fin 7) (F32.sub (F32.fin 8) (F32.fin 6)) = true
      rw [sub_fin_int 8 6 2 (by norm_num) (by norm_num)]
      simp [F32.gt]
      norm_num
  subst hv
  have harg : (if (3 : ℚ) - 1 > 0 then (3 : ℚ) - 1 else 0) = 2 := by norm_num
  have hstop := refine_rounds_succ_stop 7 3 (ex_session ex_logits_peek) _ a1
    (ex_run_joiner _ _ rfl) (by rw [harg]; exact hr1)
  exact ⟨a1, _, hstop, rfl⟩

/-- C1 (as stated, refuted). With a joiner whose logits make token 3 win, the first
round reports `true` and the loop still runs all 8 rounds; with a joiner whose
logits make blank win (with a peek), the first round reports `false` and the loop
stops after that single round. -/
theorem refine_loop_not_until_first_emit :
    (∃ (s : AprilASRSession (List (List ℚ))) (tr : List Round),
      refine_loop (ex_session ex_logits_emit) = some (s, tr) ∧
      tr.map Round.emitted = [true, true, true, true, true, true, true, true]) ∧
    (∃ (s : AprilASRSession (List (List ℚ))) (tr : List Round),
      refine_loop (ex_session ex_logits_peek) = some (s, tr) ∧
      tr.map Round.emitted = [false]) :=
  ⟨ex_refine_emit, ex_refine_peek⟩

/-- C1 (amended). The refinement loop runs between 1 and 8 rounds; every round
before the last one returned `true`, a round that returned `false` is the last
one, and when fewer than 8 rounds ran the last one returned `false`. -/
theorem refine_loop_runs_while_emitting {F : Type} (aas s : AprilASRSession F)
    (tr : List Round) (h : refine_loop aas = some (s, tr)) :
    1 ≤ tr.length ∧ tr.length ≤ 8 ∧
    (∀ (k : Nat) (r : Round), tr[k]? = some r → k + 1 < tr.length → r.emitted = true) ∧
    (∀ (k : Nat) (r : Round), tr[k]? = some r → r.emitted = false → k + 1 = tr.length) ∧
    (∀ r : Round, tr[tr.length - 1]? = some r → tr.length < 8 → r.emitted = false) := by
  obtain ⟨hle, hpos, _, hemit, hlast⟩ := refine_rounds_spec 8 3 aas s tr h
  refine ⟨hpos (by decide), hle, hemit, ?_, hlast⟩
  intro k r hk hfalse
  have hlt := (List.getElem?_eq_some_iff.mp hk).1
  by_contra hne
  have := hemit k r hk (by omega)
  rw [this] at hfalse
  exact absurd hfalse (by decide)

/-- C10. In the refinement loop the `k`-th round (`k = 1..8`) calls
`aas_process_logits` with `early_emit = max(0, 3 - k)`, which is never negative;
the arguments of the rounds that run are an initial part of
`2, 1, 0, 0, 0, 0, 0, 0`. -/
theorem refine_loop_early_emit {F : Type} (aas s : AprilASRSession F)
    (tr : List Round) (h : refine_loop aas = some (s, tr)) :
    tr.length ≤ 8 ∧
    (∀ (k : Nat) (r : Round), 1 ≤ k → tr[k - 1]? = some r →
      r.early_emit = max 0 (3 - (k : ℚ)) ∧ 0 ≤ r.early_emit) ∧
    tr.map Round.early_emit = ([2, 1, 0, 0, 0, 0, 0, 0] : List ℚ).take tr.length := by
  obtain ⟨hle, _, harg, _, _⟩ := refine_rounds_spec 8 3 aas s tr h
  have hk : ∀ (k : Nat) (r : Round), 1 ≤ k → tr[k - 1]? = some r →
      r.early_emit = max 0 (3 - (k : ℚ)) := by
    intro k r hk1 hr
    rw [harg (k - 1) r hr]
    congr 1
    have : ((k - 1 : Nat) : ℚ) = (k : ℚ) - 1 := by
      rw [Nat.cast_sub hk1]
      simp
    rw [this]
    ring
  refine ⟨hle, fun k r hk1 hr => ⟨hk k r hk1 hr, ?_⟩, ?_⟩
  · rw [hk k r hk1 hr]
    exact le_max_left _ _
  · apply List.ext_getElem?
    intro i
    by_cases hi : i < tr.length
    · have hr : tr[i]? = some tr[i] := List.getElem?_eq_getElem hi
      have hv := harg i tr[i] hr
      rw [List.getElem?_map, hr, Option.map_some', hv, List.getElem?_take_of_lt hi]
      have hi8 : i < 8 := by omega
      interval_cases i <;> norm_num
    · rw [List.getElem?_map, List.getElem?_eq_none (by omega),
        List.getElem?_eq_none (by simp; omega)]
      rfl

/-! ## Rounds decided by the binary32 rounding -/

theorem sub_ex_tie :
    F32.sub (F32.fin (10066331 / 33554432)) (F32.fin 2) = F32.fin (-14260633 / 8388608) := by
  have hr : round_mag (57042533 / 33554432) = ((14260633 : ℤ) : ℚ) * (2 : ℚ) ^ ((0 : ℤ) - 23) :=
    round_mag_eval (57042533 / 33554432) 0 14260633 (by norm_num) (by norm_num) (by norm_num)
      (by rw [abs_lt]; constructor <;> norm_num)
  have h := round32_neg (57042533 / 33554432) _ (by norm_num) hr (by norm_num)
  have hx : (10066331 / 33554432 : ℚ) - 2 = -(57042533 / 33554432) := by norm_num
  show round32 ((10066331 / 33554432 : ℚ) - 2) = _
  rw [hx, h]
  congr 1
  norm_num

theorem sub_ex_tie_6 :
    F32.sub (F32.fin (-14260633 / 8388608)) (F32.fin 6) = F32.fin (-8074035 / 1048576) := by
  have hr : round_mag (64592281 / 8388608) = ((16148070 : ℤ) : ℚ) * (2 : ℚ) ^ ((2 : ℤ) - 23) :=
    round_mag_eval (64592281 / 8388608) 2 16148070 (by norm_num) (by norm_num) (by norm_num)
      (by rw [abs_lt]; constructor <;> norm_num)
  have h := round32_neg (64592281 / 8388608) _ (by norm_num) hr (by norm_num)
  have hx : (-14260633 / 8388608 : ℚ) - 6 = -(64592281 / 8388608) := by norm_num
  show round32 ((-14260633 / 8388608 : ℚ) - 6) = _
  rw [hx, h]
  congr 1
  norm_num

theorem sub_ex_edge_0 :
    F32.sub (F32.fin (-12582913 / 4194304)) (F32.fin 0) = F32.fin (-12582913 / 4194304) := by
  have hr : round_mag (12582913 / 4194304) = ((12582913 : ℤ) : ℚ) * (2 : ℚ) ^ ((1 : ℤ) - 23) :=
    round_mag_eval (12582913 / 4194304) 1 12582913 (by norm_num) (by norm_num) (by norm_num)
      (by rw [abs_lt]; constructor <;> norm_num)
  have h := round32_neg (12582913 / 4194304) _ (by norm_num) hr (by norm_num)
  have hx : (-12582913 / 4194304 : ℚ) - 0 = -(12582913 / 4194304) := by norm_num
  show round32 ((-12582913 / 4194304 : ℚ) - 0) = _
  rw [hx, h]
  congr 1
  norm_num

theorem sub_ex_edge_6 :
    F32.sub (F32.fin (-12582913 / 4194304)) (F32.fin 6) = F32.fin (-9) := by
  have hr : round_mag (37748737 / 4194304) = ((9437184 : ℤ) : ℚ) * (2 : ℚ) ^ ((3 : ℤ) - 23) :=
    round_mag_eval (37748737 / 4194304) 3 9437184 (by norm_num) (by norm_num) (by norm_num)
      (by rw [abs_lt]; constructor <;> norm_num)
  have h := round32_neg (37748737 / 4194304) _ (by norm_num) hr (by norm_num)
  have hx : (-12582913 / 4194304 : ℚ) - 6 = -(37748737 / 4194304) := by norm_num
  show round32 ((-12582913 / 4194304 : ℚ) - 6) = _
  rw [hx, h]
  congr 1
  norm_num

theorem scan_ex_tie :
    biased_scan ex_logits_tie (F32.fin 2) =
      some { max_idx := 0, max_idx_non0 := 1, max_val := F32.fin (-14260633 / 8388608),
             max_val_non0 := F32.fin (-14260633 / 8388608) } := by
  apply biased_scan_eval (F32.fin (10066331 / 33554432)) (F32.fin (-14260633 / 8388608))
    (floats [-14260633 / 8388608]) (F32.fin (-2)) 498 2
  · exact sub_ex_tie
  · rfl
  · rfl
  · norm_num [scan_after, scan_step, scan_init_eq, F32.gt, floats]
  · simp [F32.gt]
    norm_num
  · simp [F32.gt]
    norm_num

theorem scan_ex_edge :
    biased_scan ex_logits_edge (F32.fin 0) =
      some { max_idx := 0, max_idx_non0 := 1, max_val := F32.fin (-12582913 / 4194304),
             max_val_non0 := F32.fin (-9) } := by
  apply biased_scan_eval (F32.fin (-12582913 / 4194304)) (F32.fin (-12582913 / 4194304))
    (floats [-9]) (F32.fin (-9)) 498 2
  · exact sub_ex_edge_0
  · rfl
  · rfl
  · norm_num [scan_after, scan_step, scan_init_eq, F32.gt, floats]
  · simp [F32.gt]
    norm_num
  · simp [F32.gt]

/-- The binary32 rounding of `logits[0] -= early_emit` decides a round. On
`ex_logits_tie` with `early_emit = 2` the exact difference lies below `logits[1]`
and its rounding equals `logits[1]`: the comparison `v > max_val` fails at index
1, blank keeps the maximum, and the round returns `false` without accepting. -/
theorem ex_tie_round_blank_wins :
    (10066331 / 33554432 : ℚ) - 2 < -14260633 / 8388608 ∧
    F32.sub (F32.fin (10066331 / 33554432)) (F32.fin 2) = F32.fin (-14260633 / 8388608) ∧
    (biased_scan ex_logits_tie (F32.fin 2)).map Scan.max_idx = some 0 ∧
    ∃ s : AprilASRSession (List (List ℚ)),
      decoder_round (ex_session []) ex_logits_tie (F32.fin 2) = some (s, some false) := by
  refine ⟨by norm_num, sub_ex_tie, by rw [scan_ex_tie]; rfl, ?_⟩
  obtain ⟨a1, r1, hr1, hv1, _⟩ :=
    ex_blank (ex_session []) ex_logits_tie (F32.fin 2) _ (ex_session_ready [])
      (by decide) scan_ex_tie rfl (by decide) (by decide)
  have hv : r1 = some false := by
    rw [hv1, if_pos]
    refine ⟨by decide, ?_⟩
    show F32.gt (F32.fin (-14260633 / 8388608))
      (F32.sub (F32.fin (-14260633 / 8388608)) (F32.fin 6)) = true
    rw [sub_ex_tie_6]
    simp [F32.gt]
    norm_num
  subst hv
  exact ⟨a1, hr1⟩

/-- The binary32 rounding of `max_val - 6.0f` decides a round. On `ex_logits_edge`
with `early_emit = 0` blank wins with `max_val = -(3 + 2^-22)`; the exact
`max_val - 6` lies below `max_val_non0 = -9` and its rounding is `-9`: the
comparison `max_val_non0 > (max_val - 6.0f)` fails and the round reaches the end
of the function without a return value. -/
theorem ex_edge_round_no_return :
    (-12582913 / 4194304 : ℚ) - 6 < -9 ∧
    F32.sub (F32.fin (-12582913 / 4194304)) (F32.fin 6) = F32.fin (-9) ∧
    (biased_scan ex_logits_edge (F32.fin 0)).map Scan.max_idx = some 0 ∧
    ∃ s : AprilASRSession (List (List ℚ)),
      decoder_round (ex_session []) ex_logits_edge (F32.fin 0) = some (s, none) := by
  refine ⟨by norm_num, sub_ex_edge_6, by rw [scan_ex_edge]; rfl, ?_⟩
  obtain ⟨a1, r1, hr1, hv1, _⟩ :=
    ex_blank (ex_session []) ex_logits_edge (F32.fin 0) _ (ex_session_ready [])
      (by decide) scan_ex_edge rfl (by decide) (by decide)
  have hv : r1 = none := by
    rw [hv1, if_neg]
    rintro ⟨_, h⟩
    have h1 : F32.gt (F32.fin (-9)) (F32.sub (F32.fin (-12582913 / 4194304)) (F32.fin 6)) =
        true := h
    rw [sub_ex_edge_6] at h1
    simp [F32.gt] at h1
  subst hv
  exact ⟨a1, hr1⟩

/-! ## The audio loop -/

theorem ex_feed_eval :
    aas_feed_pcm16 ex_api (ex_session []) [0, 16384, -32768] =
      some { ex_session [] with fbank := [[0, 1 / 2, -1]] } := by
  simp only [aas_feed_pcm16, feed_loop, List.length_cons, List.length_nil, SEGSIZE]
  norm_num [feed_chunk, pull_loop, ex_api, feed_loop]
  rfl

/-! ## The audio loop where a round has no return value -/

theorem ex_blank_refine_undefined {F : Type} (a : AprilASRSession F) (hready : ExReady a)
    (hm : a.model = ex_model ex_logits_blank) (hhead : a.active_token_head ≤ 16) :
    refine_loop a = none := by
  obtain ⟨a1, r1, hr1, hv1, _⟩ :=
    ex_blank a ex_logits_blank (F32.fin 2) _ hready hhead scan_ex_blank rfl
      (by decide) (by decide)
  have hv : r1 = none := by
    rw [hv1, if_neg]
    rintro ⟨_, h⟩
    have h1 : F32.gt (F32.fin 0) (F32.sub (F32.fin 8) (F32.fin 6)) = true := h
    rw [sub_fin_int 8 6 2 (by norm_num) (by norm_num)] at h1
    simp [F32.gt] at h1
    norm_num at h1
  subst hv
  have harg : (if (3 : ℚ) - 1 > 0 then (3 : ℚ) - 1 else 0) = 2 := by norm_num
  exact refine_rounds_succ_undef 7 3 a _ a1 (ex_run_joiner a ex_logits_blank hm)
    (by rw [harg]; exact hr1)

theorem pull_loop_undefined {F : Type} (api : FBankApi F) (fuel : Nat)
    (aas a1 : AprilASRSession F) (fb : F) (x : TensorF)
    (hpull : api.fbank_pull_segments aas.fbank (4 * SHAPE_PRODUCT3 aas.model.x_dim) =
      some (fb, x))
    (henc : aas_run_encoder { aas with fbank := fb, x := x } = some a1)
    (href : refine_loop a1 = none) :
    pull_loop api (fuel + 1) aas = none := by
  unfold pull_loop
  simp only [hpull, henc, href, bind, Option.bind]

theorem feed_loop_undefined {F : Type} (api : FBankApi F) (pcm16 : List Int)
    (fuel head : Nat) (aas : AprilASRSession F) (hlt : head < pcm16.length)
    (h : feed_chunk api aas
      (((pcm16.drop head).take
        (if pcm16.length - head > SEGSIZE then SEGSIZE else pcm16.length - head)).map
          (fun s : Int => (s : ℚ) / 32768)) = none) :
    feed_loop api pcm16 (fuel + 1) head aas = none := by
  unfold feed_loop
  have hrem : ¬ (pcm16.length - head < 1) := by omega
  simp only [hlt, if_true, hrem, if_false, h]

/-- The proviso of C8 at a concrete input. With the extractor `ex_api_seg` and the
model whose joiner produces `[10, 0, 0, ..., 0]`, the first round on the segment
pulled after the single sub-chunk of one sample reaches the end of
`aas_process_logits` without a return value (the defect of C2), and the call has
no defined behaviour from there on. -/
theorem ex_feed_undefined :
    aas_feed_pcm16 ex_api_seg (ex_session_seg ex_logits_blank) [0] = none := by
  obtain ⟨a1, henc, hready, hm, hhead⟩ : ∃ a1,
      aas_run_encoder { ex_session_seg ex_logits_blank with
        fbank := ([[(0 : ℚ)]], 0), x := [F32.fin 0, F32.fin 0] } = some a1 ∧
      ExReady a1 ∧ a1.model = ex_model ex_logits_blank ∧ a1.active_token_head ≤ 16 :=
    ⟨_, rfl, ⟨rfl, rfl, List.length_replicate 64 0, rfl⟩, rfl, Nat.zero_le 16⟩
  have href := ex_blank_refine_undefined a1 hready hm hhead
  have hchunk : feed_chunk ex_api_seg (ex_session_seg ex_logits_blank) [(0 : ℚ)] = none :=
    pull_loop_undefined ex_api_seg 0
      { ex_session_seg ex_logits_blank with fbank := ([[(0 : ℚ)]], 1) } a1
      ([[(0 : ℚ)]], 0) [F32.fin 0, F32.fin 0] (by rfl) henc href
  have h0 : ((0 : Int) : ℚ) / 32768 = 0 := by norm_num
  exact feed_loop_undefined ex_api_seg [0] 0 0 _ (by decide) (by
    show feed_chunk ex_api_seg (ex_session_seg ex_logits_blank) [((0 : Int) : ℚ) / 32768] = none
    rw [h0]
    exact hchunk)

/-! ## Instances at concrete inputs -/

theorem get_token_char0_ex_4 : get_token_char0 ex_params 4 = some ' ' := by
  unfold get_token_char0
  rw [get_token_ex 4 (by decide) (by decide)]
  rfl

theorem ex_session_17_ready : ExReady ex_session_17 := by
  refine ⟨rfl, rfl, List.length_replicate 64 3, ?_⟩
  rw [ring_readable_iff]
  intro m hm
  have hm17 : m < 17 := hm
  refine ⟨3, _, ?_, get_token_ex 3 (by decide) (by decide)⟩
  show (List.replicate 64 (3 : Int))[m]? = some 3
  rw [List.getElem?_replicate, if_pos (by omega)]

theorem ex_session_17_accept :
    ∃ s1 : AprilASRSession (List (List ℚ)),
      aas_process_logits ex_session_17 (F32.fin 0) = some (s1, some true) := by
  obtain ⟨hp, _, hlen, hread⟩ := ex_session_17_ready
  obtain ⟨lg, hl⟩ : ∃ lg, bias_blank ex_logits_space (F32.fin 0) = some lg := ⟨_, rfl⟩
  have hev := process_logits_eval ex_session_17 (F32.fin 0) lg _ hl
    (scan_ex_space 0 (le_refl _)) hread
  rw [if_pos (by decide)] at hev
  rw [accept_branch_eval _ 4 0 0 _
    (by
      show ring_reset_check ex_params 17 4 = some 0
      simp only [ring_reset_check, get_token_char0_ex_4]
      decide)
    (by show 0 < (List.replicate 64 (3 : Int)).length; rw [List.length_replicate]; decide)
    (by show (ex_session ex_logits_space).context[1]? = some 0; rfl)
    (by
      show get_token ex_params 4 = some (ex_tokens.drop (2 * (4 : Int).toNat))
      exact get_token_ex 4 (by decide) (by decide))] at hev
  exact ⟨_, hev⟩

/-- Witness of C5: a ring of 17 tokens and an accepted token whose text is `" "`;
the ring is reset and holds only that token afterwards. -/
theorem accept_ring_update_witness :
    ∃ s1 : AprilASRSession (List (List ℚ)),
      aas_process_logits ex_session_17 (F32.fin 0) = some (s1, some true) ∧
      ring ex_session_17 = List.replicate 17 3 ∧ ring s1 = [4] := by
  obtain ⟨s1, h⟩ := ex_session_17_accept
  have hthm := accept_ring_update ex_session_17 s1 (F32.fin 0) _ (scan_ex_space 0 (le_refl _)) h
  refine ⟨s1, h, by decide, ?_⟩
  rw [hthm.2.2, if_pos]
  exact ⟨by decide, Or.inl get_token_char0_ex_4⟩

theorem ex_round_emit_eval :
    ∃ s : AprilASRSession (List (List ℚ)),
      run_rounds (aas_create_session ex_api (ex_model [])) [(ex_logits_emit, F32.fin 2)] =
        some (s, [3]) ∧
      s.context = [0, 3] := by
  obtain ⟨a1, hr1, _, _, _, _, hc1⟩ :=
    ex_accept (ex_session []) ex_logits_emit (F32.fin 2) _ (ex_session_ready [])
      (by decide) (scan_ex_emit 2 (by norm_num)) (by decide) (by decide) (by decide)
  have e1 := run_rounds_cons (ex_session []) a1 a1 ex_logits_emit (F32.fin 2) _ _ [] []
    (scan_ex_emit 2 (by norm_num)) hr1 rfl
  exact ⟨a1, e1, hc1⟩

/-- Witness of C3: one round with the logits `[1, 1, 1, 9, 1, 1, ...]` on a fresh
session accepts token 3 and leaves the context `[0, 3]`; the four rounds of
`ex_rounds`, of which the second accepts token 3 and the fourth token 4, leave the
context `[3, 4]`. -/
theorem context_window_last_two_witness :
    SHAPE_PRODUCT2 (ex_model []).context_dim = 2 ∧
    (∃ s : AprilASRSession (List (List ℚ)),
      run_rounds (aas_create_session ex_api (ex_model [])) [(ex_logits_emit, F32.fin 2)] =
        some (s, [3]) ∧
      s.context = [0, 3]) ∧
    ∃ s : AprilASRSession (List (List ℚ)),
      run_rounds (aas_create_session ex_api (ex_model [])) ex_rounds = some (s, [3, 4]) ∧
      s.context = last_two ([0, 0] ++ [3, 4]) ∧ s.context = [3, 4] := by
  obtain ⟨s, hs, hc⟩ := ex_rounds_eval
  exact ⟨rfl, ex_round_emit_eval, s, hs,
    (context_window_last_two ex_api (ex_model []) rfl ex_rounds s [3, 4] hs).2.2.1, hc⟩

/-- Witness of C4: the session reached by the four rounds of `ex_rounds`. -/
theorem ring_head_bounded_witness :
    ∃ s : AprilASRSession (List (List ℚ)),
      run_rounds (aas_create_session ex_api (ex_model [])) ex_rounds = some (s, [3, 4]) ∧
      s.active_tokens.length = 64 ∧ s.active_token_head ≤ 31 := by
  obtain ⟨s, hs, _⟩ := ex_rounds_eval
  have hthm := ring_head_bounded ex_api (ex_model []) ex_rounds s [3, 4] hs
  exact ⟨s, hs, hthm.1, hthm.2.1⟩

/-- Witness of C7: token 3 is accepted with `early_emit = 0` and with
`early_emit = 2`. -/
theorem process_logits_early_emit_mono_witness :
    ∃ (aas1 aas2 : AprilASRSession (List (List ℚ))),
      F32.le (F32.fin 0) (F32.fin 2) = true ∧
      aas_process_logits { ex_session [] with logits := ex_logits_emit } (F32.fin 0) =
        some (aas1, some true) ∧
      aas_process_logits { ex_session [] with logits := ex_logits_emit } (F32.fin 2) =
        some (aas2, some true) ∧
      aas1.context[1]? = some 3 ∧ aas2.context[1]? = some 3 := by
  obtain ⟨a1, h1, _⟩ := ex_accept (ex_session []) ex_logits_emit (F32.fin 0) _
    (ex_session_ready []) (by decide) (scan_ex_emit 0 (le_refl _)) (by decide) (by decide)
    (by decide)
  have h1a : aas_process_logits { ex_session [] with logits := ex_logits_emit } (F32.fin 0) =
      some (a1, some true) := h1
  have hle : F32.le (F32.fin 0) (F32.fin 2) = true := le_fin_of_le 0 2 (by norm_num)
  obtain ⟨a2, sc, h2, hsc1, _, _, hc1, hc2, _⟩ :=
    process_logits_early_emit_mono _ a1 (F32.fin 0) (F32.fin 2) hle h1a
  have hsc : sc =
      { max_idx := 3, max_idx_non0 := 3, max_val := F32.fin 9, max_val_non0 := F32.fin 9 } := by
    have := scan_ex_emit 0 (le_refl _)
    have hsc1a : biased_scan ex_logits_emit (F32.fin 0) = some sc := hsc1
    rw [this] at hsc1a
    exact (Option.some.inj hsc1a).symm
  subst hsc
  exact ⟨a1, a2, hle, h1a, h2, hc1, hc2⟩

/-- Witness of C10: eight rounds that all emit, with arguments `2, 1, 0, 0, 0, 0, 0, 0`. -/
theorem refine_loop_early_emit_witness :
    ∃ (s : AprilASRSession (List (List ℚ))) (tr : List Round),
      refine_loop (ex_session ex_logits_emit) = some (s, tr) ∧
      tr.map Round.early_emit = [2, 1, 0, 0, 0, 0, 0, 0] := by
  obtain ⟨s, tr, h, hmap⟩ := ex_refine_emit
  have hlen : tr.length = 8 := by
    have := congrArg List.length hmap
    simpa using this
  have hthm := (refine_loop_early_emit (ex_session ex_logits_emit) s tr h).2.2
  rw [hlen] at hthm
  exact ⟨s, tr, h, hthm⟩

/-- Witness of C1 (amended): blank wins in the first round, which returns `false`,
and the loop stops after that one round. -/
theorem refine_loop_runs_while_emitting_witness :
    ∃ (s : AprilASRSession (List (List ℚ))) (tr : List Round),
      refine_loop (ex_session ex_logits_peek) = some (s, tr) ∧
      tr.length = 1 ∧
      (∀ r : Round, tr[tr.length - 1]? = some r → tr.length < 8 → r.emitted = false) := by
  obtain ⟨s, tr, h, hmap⟩ := ex_refine_peek
  have hlen : tr.length = 1 := by
    have := congrArg List.length hmap
    simpa using this
  exact ⟨s, tr, h, hlen,
    (refine_loop_runs_while_emitting (ex_session ex_logits_peek) s tr h).2.2.2.2⟩

theorem ex_encoders_eval :
    ∃ (s : AprilASRSession (List (List ℚ))) (calls : List EncoderCall),
      run_encoders (ex_session []) [floats [1, 2], floats [3, 4], floats [5, 6]] = some (s, calls) ∧
      calls.map (fun c => (c.read_index, c.write_index)) = [(0, 1), (1, 0), (0, 1)] ∧
      calls.map EncoderCall.h_in = [floats [0, 0], floats [1, 2], floats [3, 4]] ∧
      calls.map EncoderCall.h_out = [floats [1, 2], floats [3, 4], floats [5, 6]] :=
  ⟨_, _, rfl, rfl, rfl, rfl⟩

/-- Witness of C6: three encoder invocations on a fresh session read banks
`0, 1, 0` and write banks `1, 0, 1`. -/
theorem run_encoders_double_buffer_witness :
    ∃ (s : AprilASRSession (List (List ℚ))) (calls : List EncoderCall),
      run_encoders (ex_session []) [floats [1, 2], floats [3, 4], floats [5, 6]] = some (s, calls) ∧
      calls.map (fun c => (c.read_index, c.write_index)) = [(0, 1), (1, 0), (0, 1)] ∧
      (∀ (k : Nat) (c c1 : EncoderCall), calls[k]? = some c → calls[k + 1]? = some c1 →
        c1.read_index = c.write_index ∧ c1.h_in = c.h_out ∧ c1.c_in = c.c_out) := by
  obtain ⟨s, calls, h, hidx, _, _⟩ := ex_encoders_eval
  exact ⟨s, calls, h, hidx,
    (run_encoders_double_buffer (ex_session []) s [floats [1, 2], floats [3, 4], floats [5, 6]] calls h).2.2.2.1⟩

end AprilASR
